import Mathlib

/-!
Verification of the dependency-graph construction and ordered execution
engine of a tabular data loader (`src/loader.py`).

The embedding models:
  * cell values (`Val`), tabular buffers before and after index extraction
    (`RawFrame`, `Frame`),
  * metadata enrichment (`load_metadata`),
  * reference-edge seeding (`seed_edges`),
  * hierarchy ordering of self-referencing datasets (`order_to_parent`),
  * fixed-size batching (`chunk_dataframes`),
  * the topologically ordered flush of all batches (`flush_all`), including
    the lazy Kahn-style node emission of the graph library used by the code,
  * the dedup log (`log_load_json`, `log_retrieve_loaded_indices`) and the
    byte-level growth protocol of the persisted JSON log file.
-/

set_option maxHeartbeats 1000000

/-- A cell value of a tabular buffer: `none` models a null/NaN cell,
`some s` a string value. -/
abbrev Val := Option String

section TopoVisit

variable {α : Type} [DecidableEq α]

/-- `noPendingPred edges remaining v` holds when no edge `(u, v)` of `edges`
has its source `u` still in `remaining`: `v` can be emitted by Kahn's
algorithm.  Models the in-degree test of `networkx.topological_sort`. -/
def noPendingPred (edges : List (α × α)) (remaining : List α) (v : α) : Bool :=
  decide (∀ e ∈ edges, e.2 = v → e.1 ∉ remaining)

/-- Lazy topological emission, modelling the generator
`networkx.topological_sort`: repeatedly emit the first node with no pending
predecessor; stop with flag `false` (the generator raises
`NetworkXUnfeasible`) when nodes remain but none can be emitted.  The first
component is the list of nodes emitted before the stop; the second is `true`
iff all nodes were emitted.  The fuel argument only drives the structural
recursion; callers pass the node-list length, which always suffices since
every step removes one node. -/
def topoVisit (edges : List (α × α)) : Nat → List α → List α × Bool
  | _, [] => ([], true)
  | 0, _ :: _ => ([], false)
  | fuel + 1, x :: xs =>
    match (x :: xs).find? (noPendingPred edges (x :: xs)) with
    | none => ([], false)
    | some v =>
      let r := topoVisit edges fuel ((x :: xs).erase v)
      (v :: r.1, r.2)

/-- All-or-nothing topological sort (the graph library's sort consumed in
full, as `DataFrame.reindex` does): `some` of the full order, or `none`
when a cycle prevents one. -/
def topoSort (edges : List (α × α)) (nodes : List α) : Option (List α) :=
  let r := topoVisit edges nodes.length nodes
  if r.2 then some r.1 else none

end TopoVisit


/-! ## Data model -/

/-- A raw tabular buffer as parsed from an input file: named columns and
rows of cells (a row is aligned to `columns`). -/
structure RawFrame where
  columns : List String
  rows : List (List Val)
deriving DecidableEq, Repr

/-- A tabular buffer after `set_index`: the index column has been pulled
out, every row is its index value paired with the remaining cells (aligned
to `cols`, which keeps the original column-name strings, e.g.
`"parent_id/id"`). -/
structure Frame where
  indexName : String
  cols : List String
  rows : List (Val × List Val)
deriving DecidableEq, Repr

/-- A resolved column descriptor (an element of a node's `cols` list):
normalized name, identifier-convention subfield (`"id"`, `".id"` or `""`),
and — when the column matches a relational field — the referenced model. -/
structure Column where
  name : String
  subfield : String
  model : Option String
deriving DecidableEq, Repr

/-- The metadata the odoo environment provides for one model:
relational fields as (field name, referenced model) pairs, the designated
parent-field name (`_parent_name`) and a display label (`_description`). -/
structure ModelMeta where
  relational : List (String × String)
  parent : String
  descr : String
deriving Repr

/-- A dataset node of the `DataSetGraph`: target model, tabular buffer,
and the metadata attached by `load_metadata`. -/
structure Node where
  model : String
  df : Frame
  cols : List Column
  parent : String
  descr : String
deriving DecidableEq, Repr

/-- Result of the record store's `load` call: written identifiers and
diagnostic messages (`res["ids"]`, `res["messages"]`). -/
structure LoadRes where
  ids : List Int
  messages : List String

/-- The external record store interface `env[model].load(fields, data)`. -/
abbrev Store := String → List String → List (List String) → LoadRes

/-- One persisted dedup-log entry, as serialized by `log_load_json`. -/
structure LogEntry where
  batch : Nat
  candidates : List Val
  loaded : List Int
  model : String
  state : String
  x_msgs : List String
deriving DecidableEq, Repr

/-! ## Metadata enrichment (`DataSetGraph.load_metadata`) -/

/-- Split a character list at every occurrence of `sep` (Python
`str.split(sep)` semantics: the empty input yields one empty field, a
trailing separator yields a trailing empty field). -/
def splitOnChar (sep : Char) : List Char → List (List Char)
  | [] => [[]]
  | c :: cs =>
    let rest := splitOnChar sep cs
    if c = sep then [] :: rest
    else
      match rest with
      | [] => [[c]]
      | h :: t => (c :: h) :: t

/-- Modelled from the spec: the external column-path normalizer
(`odoo.models.fix_import_export_id_paths`) is not part of this repository;
per the spec's column-name normalization it splits a column name into its
`/`-separated path components, so a trailing `/id` or `/.id` suffix becomes
a separate final component. -/
def fix_import_export_id_paths (col : String) : List String :=
  (splitOnChar '/' col.data).map (fun cs => String.mk cs)

/-- Column-name normalization: `fixed = fix_import_export_id_paths(col)`,
name `fixed[0]`, subfield `fixed[1]` when the path has exactly two
components, else empty. -/
def normalizeCol (c : String) : Column :=
  { name := (fix_import_export_id_paths c).headD "",
    subfield :=
      if (fix_import_export_id_paths c).length = 2 then
        (fix_import_export_id_paths c).getD 1 ""
      else "",
    model := none }

/-- The rejection test of `load_metadata`: a nonempty subfield other than
`id`/`.id` is unsupported `*2many` notation. -/
def badSubfield (col : Column) : Bool :=
  decide (col.subfield ≠ "" ∧ col.subfield ∉ (["id", ".id"] : List String))

/-- Metadata enrichment for one node, translated from the body of the
`load_metadata` loop: normalize column names, reject a nonempty subfield
other than `id`/`.id` as unsupported `*2many` notation, then resolve
relational columns, the parent field and the display label against the
environment's model metadata. -/
def loadMetadataNode (env : String → ModelMeta) (nd : Node) : Except String Node :=
  if (nd.df.cols.map normalizeCol).any badSubfield then
    .error "*2many subfield notation is not supported by this loader"
  else
    .ok { nd with
          cols := (nd.df.cols.map normalizeCol).map (fun col =>
            { col with
              model := ((env nd.model).relational.find?
                (fun r => decide (r.1 = col.name))).map (fun r => r.2) }),
          parent := (env nd.model).parent,
          descr := (env nd.model).descr }

/-- Sequential processing of a list with first-error abort, mirroring the
Python `for` loops over graph nodes in which an exception propagates. -/
def mapExcept {α β : Type} (f : α → Except String β) : List α → Except String (List β)
  | [] => .ok []
  | x :: xs =>
    match f x with
    | .error e => .error e
    | .ok y =>
      match mapExcept f xs with
      | .error e => .error e
      | .ok ys => .ok (y :: ys)

/-- `DataSetGraph.load_metadata`: enrich every node, aborting on the first
configuration error. -/
def load_metadata (env : String → ModelMeta) (nodes : List Node) :
    Except String (List Node) :=
  mapExcept (loadMetadataNode env) nodes

/-! ## Reference-edge seeding (`DataSetGraph.seed_edges`) -/

/-- `DataSetGraph.seed_edges`: for every node `u` and every enriched column
of `u` carrying a referenced model, add an edge `u → v` to every node `v`
whose model equals the referenced model, unless the column is `u`'s parent
column.  Nodes are identified by their position in the node list. -/
def seed_edges (nodes : List Node) : List (Nat × Nat) :=
  nodes.enum.bind (fun p =>
    (p.2.cols.filter (fun col => col.model.isSome)).bind (fun col =>
      (nodes.enum.filter (fun q =>
        decide (col.model = some q.2.model ∧ col.name ≠ p.2.parent))).map
        (fun q => (p.1, q.1))))

/-! ## Hierarchy ordering (`DataSetGraph.order_to_parent`) -/

/-- Insert the elements of `xs` that are not yet present, in order
(`networkx` node insertion: adding an existing node is a no-op). -/
def addNodes {α : Type} [DecidableEq α] (acc : List α) (xs : List α) : List α :=
  xs.foldl (fun a x => if x ∈ a then a else a ++ [x]) acc

/-- `DataFrame.reindex`: the row at each label of `ord`, or an all-null
filler row for a label that is not in the index. -/
def reindex (f : Frame) (ord : List Val) : Frame :=
  { f with rows := ord.map (fun v =>
      match f.rows.find? (fun r => decide (r.1 = v)) with
      | some r => r
      | none => (v, f.cols.map (fun _ => (none : Val)))) }

/-- The per-row parent references of a node's buffer:
`viewitems(df[parent])` with the parent data column at position `k` —
(index value, parent cell) for every row. -/
def recordPairs (nd : Node) (k : Nat) : List (Val × Val) :=
  nd.df.rows.map (fun r => (r.1, r.2.getD k none))

/-- The row-level hierarchy edges: the non-null parent references
(`df[parent][df[parent].notnull()]`), as (row index, parent value). -/
def recordEdges (nd : Node) (k : Nat) : List (Val × Val) :=
  (recordPairs nd k).filterMap (fun p =>
    match p.2 with
    | some s => some (p.1, (some s : Val))
    | none => none)

/-- The row-level graph's node list: all row indices
(`add_nodes_from(df.index)`), then any edge endpoint not yet present
(`add_edges_from` inserts missing endpoints). -/
def recordNodes (nd : Node) (k : Nat) : List Val :=
  addNodes (nd.df.rows.map (fun r => r.1))
    ((recordEdges nd k).bind (fun e => [e.1, e.2]))

/-- `DataSetGraph.order_to_parent` for one node: if the node's column set
contains the parent column and its subfield convention equals the index
convention, build the row-level graph (an edge from each row's index to its
non-null parent cell), topologically sort its reversal and reindex the
buffer; otherwise leave the node untouched.  A missing parent data column
(KeyError) or a cyclic row-level graph (NetworkXUnfeasible) aborts. -/
def order_to_parent (nd : Node) : Except String Node :=
  match nd.cols.find? (fun col => decide (col.name = nd.parent)) with
  | none => .ok nd
  | some parent_col =>
    if parent_col.subfield ≠ nd.df.indexName then .ok nd
    else
      match nd.df.cols.indexOf? (parent_col.name ++ "/" ++ parent_col.subfield) with
      | none => .error "KeyError"
      | some k =>
        match topoSort ((recordEdges nd k).map (fun e => (e.2, e.1)))
            (recordNodes nd k) with
        | none => .error "cycle in record graph"
        | some ord => .ok { nd with df := reindex nd.df ord }

/-- `order_to_parent` over all nodes, aborting on the first error. -/
def order_to_parent_all (nodes : List Node) : Except String (List Node) :=
  mapExcept order_to_parent nodes

/-! ## Batching (`DataSetGraph.chunk_dataframes`) -/

/-- Fuel-driven worker for `chunkList`; callers pass the list length, which
always suffices since every step drops at least one element. -/
def chunkRun {α : Type} (n : Nat) : Nat → List α → List (List α)
  | _, [] => []
  | 0, x :: xs => [x :: xs]
  | fuel + 1, x :: xs =>
    if n = 0 then [x :: xs]
    else (x :: xs).take n :: chunkRun n fuel ((x :: xs).drop n)

/-- Fixed-size slicing, modelling `df.groupby(np.arange(len(df)) // batch)`:
successive groups of `n` rows (the last group may be smaller); with `n = 0`
numpy's integer floor division yields key `0` for every row, so everything
lands in one group. -/
def chunkList {α : Type} (n : Nat) (l : List α) : List (List α) :=
  chunkRun n l.length l

/-- A dataset node after batching: the buffer is replaced by the numbered
batch sequence (`chunked_iterable`, whose group keys are `0, 1, …`). -/
structure ChunkedNode where
  model : String
  descr : String
  batches : List (Nat × Frame)
deriving DecidableEq, Repr

/-- Batching of one node. -/
def chunkNode (batch : Nat) (nd : Node) : ChunkedNode :=
  { model := nd.model, descr := nd.descr,
    batches := (chunkList batch nd.df.rows).enum.map
      (fun p => (p.1, { nd.df with rows := p.2 })) }

/-- `DataSetGraph.chunk_dataframes`: batch every node's buffer. -/
def chunk_dataframes (batch : Nat) (nodes : List Node) : List ChunkedNode :=
  nodes.map (chunkNode batch)

/-! ## Execution (`load`, `DataSetGraph.flush_all`) -/

/-- `fillna("")`/string normalization of a cell. -/
def valStr (v : Val) : String := v.getD ""

/-- The module-level `load` function: submit one chunk (index column first,
missing values blanked) to the store and classify the outcome: `failure`
exactly when the store reports no written ids, else `success`. -/
def load (store : Store) (model : String) (chunk : Frame) :
    String × List Int × List String :=
  let res := store model (chunk.indexName :: chunk.cols)
    (chunk.rows.map (fun r => valStr r.1 :: r.2.map valStr))
  if res.ids = [] then ("failure", res.ids, res.messages)
  else ("success", res.ids, res.messages)

/-- Flush one node's batches in sequence order, producing one log entry per
batch (`log_load_json` record contents). -/
def flushNode (store : Store) (nd : ChunkedNode) : List LogEntry :=
  nd.batches.map (fun b =>
    let r := load store nd.model b.2
    { batch := b.1, candidates := b.2.rows.map (·.1), loaded := r.2.1,
      model := nd.model, state := r.1, x_msgs := r.2.2 })

/-- Node lookup with a junk default (indices always come from
`List.range nodes.length`). -/
def getNode (nodes : List ChunkedNode) (i : Nat) : ChunkedNode :=
  nodes.getD i { model := "", descr := "", batches := [] }

/-- The node emission order of `flush_all`:
`nx.topological_sort(self.reverse(False))` — the lazy topological sort of
the reversed reference graph, so referenced datasets come first. -/
def flushOrder (nodes : List ChunkedNode) (edges : List (Nat × Nat)) :
    List Nat × Bool :=
  topoVisit (edges.map (fun e => (e.2, e.1))) nodes.length (List.range nodes.length)

/-- `DataSetGraph.flush_all`: walk the emission order, flushing each
visited node's batches and appending every outcome to the log; the flag is
`false` when the sort raised (a cycle), aborting the run after the entries
already written. -/
def flush_all (store : Store) (nodes : List ChunkedNode)
    (edges : List (Nat × Nat)) : List LogEntry × Bool :=
  let vis := flushOrder nodes edges
  ((vis.1.map (fun i => flushNode store (getNode nodes i))).join, vis.2)

/-- The submission trace of `flush_all`: which (node, batch number) pairs
are submitted to the store, in order. -/
def flushTrace (nodes : List ChunkedNode) (edges : List (Nat × Nat)) :
    List (Nat × Nat) :=
  ((flushOrder nodes edges).1.map (fun i =>
    (getNode nodes i).batches.map (fun b => (i, b.1)))).join

/-! ## Dedup log reading and graph admission -/

/-- `_log_retrieve_loaded_indices`: from the parsed log entries (the
sentinel `{}` already stripped by `[:-1]`), keep entries of the model with
a nonempty `loaded` list and concatenate their candidate identifiers. -/
def log_retrieve_loaded_indices (entries : List LogEntry) (model : String) :
    List Val :=
  ((entries.filter (fun x => decide (x.model = model ∧ x.loaded ≠ []))).map
    (·.candidates)).join

/-- `pandas.DataFrame.set_index`: pull the named column out as the index. -/
def setIndex (columns : List String) (rows : List (List Val)) (idxName : String) :
    Frame :=
  let k := columns.indexOf idxName
  { indexName := idxName, cols := columns.eraseIdx k,
    rows := rows.map (fun r => (r.getD k none, r.eraseIdx k)) }

/-- `_load_into_graph`: drop rows whose first column is the empty string or
null, select the index column (`.id` wins over `id`; neither is fatal),
set the index, and — when a dedup source exists (the log file is
nonempty) — drop rows whose index is among the already-loaded candidate
identifiers for this model.  The resulting node enters the graph bare of
metadata. -/
def admittedFrame (mod : String) (df : RawFrame)
    (dedup : Option (List LogEntry)) (idxName : String) : Frame :=
  let f := setIndex df.columns
    (df.rows.filter (fun r =>
      decide (r.getD 0 none ≠ some "" ∧ r.getD 0 none ≠ none)))
    idxName
  match dedup with
  | none => f
  | some entries =>
    { f with rows := f.rows.filter (fun r =>
        decide (r.1 ∉ log_retrieve_loaded_indices entries mod)) }

def load_into_graph (mod : String) (df : RawFrame)
    (dedup : Option (List LogEntry)) : Except String Node :=
  if ".id" ∈ df.columns ∨ "id" ∈ df.columns then
    .ok { model := mod,
          df := admittedFrame mod df dedup
            (if ".id" ∈ df.columns then ".id" else "id"),
          cols := [], parent := "", descr := "" }
  else
    .error "You need to provide an index column: id or .id are supported"

/-- One invocation of the core pipeline of `main`, for already-parsed
inputs: admit every input into the graph (with dedup filtering when the
log file already has content), enrich metadata, seed edges, order
hierarchies, batch, and flush. -/
structure Input where
  model : String
  df : RawFrame
deriving Repr

def runPipeline (env : String → ModelMeta) (store : Store) (batchSize : Nat)
    (inputs : List Input) (dedup : Option (List LogEntry)) :
    Except String (List LogEntry × Bool) :=
  match mapExcept (fun inp => load_into_graph inp.model inp.df dedup) inputs with
  | .error e => .error e
  | .ok ns =>
    match load_metadata env ns with
    | .error e => .error e
    | .ok ns2 =>
      match order_to_parent_all ns2 with
      | .error e => .error e
      | .ok ns3 =>
        .ok (flush_all store (chunk_dataframes batchSize ns3) (seed_edges ns2))

/-! ## Dedup-log persistence (`log_load_json` and the file protocol of `main`) -/

/-- Modelled from the spec: a decimal digit character. -/
def digitCh : Nat → Char
  | 0 => '0'
  | 1 => '1'
  | 2 => '2'
  | 3 => '3'
  | 4 => '4'
  | 5 => '5'
  | 6 => '6'
  | 7 => '7'
  | 8 => '8'
  | _ => '9'

/-- Modelled from the spec: a hexadecimal digit character. -/
def hexCh : Nat → Char
  | 0 => '0'
  | 1 => '1'
  | 2 => '2'
  | 3 => '3'
  | 4 => '4'
  | 5 => '5'
  | 6 => '6'
  | 7 => '7'
  | 8 => '8'
  | 9 => '9'
  | 10 => 'a'
  | 11 => 'b'
  | 12 => 'c'
  | 13 => 'd'
  | 14 => 'e'
  | _ => 'f'

/-- Fuel-driven worker of `natChars`; callers pass a fuel no smaller than
the rendered number, which always suffices. -/
def natCharsAux : Nat → Nat → List Char
  | 0, _ => []
  | fuel + 1, n =>
    if n < 10 then [digitCh n]
    else natCharsAux fuel (n / 10) ++ [digitCh (n % 10)]

/-- Modelled from the spec: canonical decimal rendering of a natural
number (no sign, no leading zeros). -/
def natChars (n : Nat) : List Char := natCharsAux (n + 1) n

/-- Modelled from the spec: JSON rendering of an integer numeral. -/
def intChars (i : Int) : List Char :=
  if i < 0 then '-' :: natChars i.natAbs else natChars i.natAbs

/-- Modelled from the spec: JSON escaping of one character — the quote,
the backslash and control characters are escaped, every other character
is emitted verbatim. -/
def jsonEscChar (c : Char) : List Char :=
  if c = '"' then ['\\', '"']
  else if c = '\\' then ['\\', '\\']
  else if c.toNat < 32 then
    ['\\', 'u', '0', '0', hexCh (c.toNat / 16), hexCh (c.toNat % 16)]
  else [c]

/-- Modelled from the spec: the escaped body of a JSON string literal. -/
def jsonEscape (s : String) : List Char := (s.toList.map jsonEscChar).flatten

/-- A JSON string literal: the escaped body between double quotes. -/
def jString (s : String) : List Char := '"' :: jsonEscape s ++ ['"']

/-- The line break emitted by `json.dumps(indent=4)` at nesting level
`lvl`: a newline followed by the current indentation. -/
def jIndent (lvl : Nat) : List Char := '\n' :: List.replicate (4 * lvl) ' '

/-- JSON rendering of one cell value: `null` for a null cell, a string
literal otherwise. -/
def jValText (v : Val) : List Char :=
  match v with
  | none => ['n', 'u', 'l', 'l']
  | some s => jString s

/-- The element texts of a non-empty indented JSON array whose bracket
sits at nesting level `lvl`: each item on its own line one level deeper,
the final item followed by the closing bracket's indentation. -/
def jElemsTexts (lvl : Nat) : List (List Char) → List (List Char)
  | [] => []
  | [v] => [jIndent (lvl + 1) ++ v ++ jIndent lvl]
  | v :: vs => (jIndent (lvl + 1) ++ v) :: jElemsTexts lvl vs

/-- An indented JSON array as emitted by `json.dumps(indent=4)` at
nesting level `lvl`; the empty array prints as `[]`. -/
def jArrayText (lvl : Nat) (items : List (List Char)) : List Char :=
  match items with
  | [] => ['[', ']']
  | _ => '[' :: List.intercalate [','] (jElemsTexts lvl items) ++ [']']

/-- One `"key": value` member line of an indented JSON object whose
braces sit at nesting level `lvl`. -/
def jMemberText (lvl : Nat) (key : String) (v : List Char) : List Char :=
  jIndent (lvl + 1) ++ jString key ++ ':' :: ' ' :: v

/-- The member texts of a non-empty indented JSON object, the final one
followed by the closing brace's indentation. -/
def jMembersTexts (lvl : Nat) : List (String × List Char) → List (List Char)
  | [] => []
  | [p] => [jMemberText lvl p.1 p.2 ++ jIndent lvl]
  | p :: ps => jMemberText lvl p.1 p.2 :: jMembersTexts lvl ps

/-- An indented JSON object as emitted by `json.dumps(indent=4)` at
nesting level `lvl`; the empty object prints as two braces. -/
def jObjectText (lvl : Nat) (pairs : List (String × List Char)) : List Char :=
  match pairs with
  | [] => ['\x7b', '\x7d']
  | _ => '\x7b' :: List.intercalate [','] (jMembersTexts lvl pairs) ++ ['\x7d']

/-- The serialized text of one dedup-log entry:
`json.dumps(entry, sort_keys=True, indent=4)` of the six-key record built
by `log_load_json` — the keys `batch`, `candidates`, `loaded`, `model`,
`state`, `x_msgs` appear in sorted order. -/
def entryText (e : LogEntry) : List Char :=
  jObjectText 0
    [ ("batch", natChars e.batch),
      ("candidates", jArrayText 1 (e.candidates.map jValText)),
      ("loaded", jArrayText 1 (e.loaded.map intChars)),
      ("model", jString e.model),
      ("state", jString e.state),
      ("x_msgs", jArrayText 1 (e.x_msgs.map jString)) ]

/-- `log_load_json`: the serialized entry followed by a trailing comma. -/
def log_load_json (e : LogEntry) : List Char := entryText e ++ [',']

/-- The closing sentinel (an empty object and the closing bracket)
appended at the end of every run. -/
def jSentinel : List Char := ['\x7b', '\x7d', ']']

/-- The log-file update of one run, from `main`: an empty file first
receives the opening bracket, otherwise the write position is moved to
three bytes before the end (`out.seek(-3, 2)`), overwriting the previous
run's sentinel; then `flush_all` appends every entry via `log_load_json`,
and finally the sentinel is appended. -/
def runFileUpdate (file : List Char) (entries : List LogEntry) : List Char :=
  (if file = [] then ['['] else file.take (file.length - 3))
    ++ (entries.map log_load_json).flatten ++ jSentinel

/-- The log file left behind by a sequence of runs, starting from an
empty file. -/
def logAfterRuns (runs : List (List LogEntry)) : List Char :=
  runs.foldl runFileUpdate []

/-- Modelled from the spec: JSON whitespace characters. -/
def isJsonWS (c : Char) : Bool :=
  c = ' ' || c = '\n' || c = '\t' || c = '\r'

/-- Modelled from the spec: characters allowed verbatim inside a JSON
string literal (everything except the quote, the backslash and control
characters). -/
def isJsonStrChar (c : Char) : Bool :=
  decide (c ≠ '"') && decide (c ≠ '\\') && decide (32 ≤ c.toNat)

/-- Modelled from the spec: hexadecimal digit characters. -/
def isHexDigitCh (c : Char) : Bool :=
  c.isDigit || ('a' ≤ c && c ≤ 'f') || ('A' ≤ c && c ≤ 'F')

/-- Modelled from the spec: one unit of a JSON string-literal body — a
verbatim character, a two-character escape, or a `\uXXXX` escape. -/
inductive JStrUnit : List Char → Prop where
  | plain (c : Char) : isJsonStrChar c = true → JStrUnit [c]
  | esc (c : Char) : c ∈ ['"', '\\', '/', 'b', 'f', 'n', 'r', 't'] → JStrUnit ['\\', c]
  | hex (a b c d : Char) : isHexDigitCh a = true → isHexDigitCh b = true →
      isHexDigitCh c = true → isHexDigitCh d = true → JStrUnit ['\\', 'u', a, b, c, d]

mutual

/-- Modelled from the spec: the grammar of JSON texts (json.org),
restricted to integer numerals — `JsonValue s` holds when `s` is a valid
JSON value. -/
inductive JsonValue : List Char → Prop where
  | str (units : List (List Char)) : (∀ u ∈ units, JStrUnit u) →
      JsonValue ('"' :: units.flatten ++ ['"'])
  | num (neg : Bool) (ds : List Char) : ds ≠ [] →
      (∀ d ∈ ds, d.isDigit = true) → (ds = ['0'] ∨ ds.head? ≠ some '0') →
      JsonValue (if neg then '-' :: ds else ds)
  | nullLit : JsonValue ['n', 'u', 'l', 'l']
  | trueLit : JsonValue ['t', 'r', 'u', 'e']
  | falseLit : JsonValue ['f', 'a', 'l', 's', 'e']
  | arrNil (w : List Char) : (∀ c ∈ w, isJsonWS c = true) →
      JsonValue ('[' :: w ++ [']'])
  | arr (es : List (List Char)) : es ≠ [] → (∀ s ∈ es, JsonElement s) →
      JsonValue ('[' :: List.intercalate [','] es ++ [']'])
  | objNil (w : List Char) : (∀ c ∈ w, isJsonWS c = true) →
      JsonValue ('\x7b' :: w ++ ['\x7d'])
  | obj (ms : List (List Char)) : ms ≠ [] → (∀ s ∈ ms, JsonMember s) →
      JsonValue ('\x7b' :: List.intercalate [','] ms ++ ['\x7d'])

/-- Modelled from the spec: a JSON array element or top-level text — a
value surrounded by optional whitespace. -/
inductive JsonElement : List Char → Prop where
  | mk (w₁ v w₂ : List Char) : (∀ c ∈ w₁, isJsonWS c = true) →
      (∀ c ∈ w₂, isJsonWS c = true) → JsonValue v →
      JsonElement (w₁ ++ v ++ w₂)

/-- Modelled from the spec: one `"key": element` member of a JSON
object. -/
inductive JsonMember : List Char → Prop where
  | mk (w₁ w₂ e : List Char) (units : List (List Char)) :
      (∀ c ∈ w₁, isJsonWS c = true) → (∀ c ∈ w₂, isJsonWS c = true) →
      (∀ u ∈ units, JStrUnit u) → JsonElement e →
      JsonMember (w₁ ++ '"' :: units.flatten ++ '"' :: w₂ ++ ':' :: e)

end

/-- Row-wise column access `df[colName]` for one row: the cell at the
position of the named data column, `none` when absent. -/
def rowParentCell (f : Frame) (cname : String) (r : Val × List Val) : Val :=
  match f.cols.indexOf? cname with
  | some k => r.2.getD k none
  | none => none

/-! ## Concrete artifacts used by counterexamples and witnesses -/

/-- A store that always reports one written identifier. -/
def cexStore : Store := fun _ _ _ => { ids := [1], messages := [] }

/-- A store that always fails (no written identifiers). -/
def cexStoreFail : Store := fun _ _ _ => { ids := [], messages := ["load failed"] }

/-- One-row frame with external-id index. -/
def cexFrame (i : String) : Frame :=
  { indexName := "id", cols := [], rows := [(some i, [])] }

/-- An independent dataset (no relational columns) plus two datasets whose
models reference each other: the reference graph is `1 → 2`, `2 → 1` with
node `0` unconstrained. -/
def cexNodes : List Node :=
  [ { model := "c", df := cexFrame "c1", cols := [], parent := "parent_id",
      descr := "C" },
    { model := "a", df := cexFrame "a1",
      cols := [{ name := "b_id", subfield := "", model := some "b" }],
      parent := "parent_id", descr := "A" },
    { model := "b", df := cexFrame "b1",
      cols := [{ name := "a_id", subfield := "", model := some "a" }],
      parent := "parent_id", descr := "B" } ]

/-- A metadata environment with no relational fields. -/
def cexEnv : String → ModelMeta :=
  fun _ => { relational := [], parent := "parent_id", descr := "Model" }

/-- A dataset whose only data column uses three-level nested path
notation. -/
def cexNestedNode : Node :=
  { model := "res.partner",
    df := { indexName := "id", cols := ["a/b/c"], rows := [] },
    cols := [], parent := "", descr := "" }

/-- A dataset whose only data column uses two-level path notation with a
nonempty second component other than `id`/`.id`. -/
def cexTwoCompNode : Node :=
  { model := "res.partner",
    df := { indexName := "id", cols := ["partner/name"], rows := [] },
    cols := [], parent := "", descr := "" }

/-- A three-row dataset used to exercise the batch partition. -/
def cexBatchNode : Node :=
  { model := "m",
    df := { indexName := "id", cols := ["f"],
            rows := [(some "r1", [some "x"]), (some "r2", [none]),
                     (some "r3", [some "y"])] },
    cols := [], parent := "parent_id", descr := "M" }

/-- Two datasets with one reference edge `0 → 1` and no cycle. -/
def cexAcyclicNodes : List Node :=
  [ { model := "a", df := cexFrame "a1",
      cols := [{ name := "b_id", subfield := "", model := some "b" }],
      parent := "parent_id", descr := "A" },
    { model := "b", df := cexFrame "b1", cols := [], parent := "parent_id",
      descr := "B" } ]

/-- A resolved self-reference column in external-identifier convention. -/
def cexParentCol : Column :=
  { name := "parent_id", subfield := "id", model := some "h" }

/-- A two-row hierarchical dataset: row `r2` references row `r1`. -/
def cexHierNode : Node :=
  { model := "h",
    df := { indexName := "id", cols := ["parent_id/id"],
            rows := [(some "r1", [none]), (some "r2", [some "r1"])] },
    cols := [cexParentCol], parent := "parent_id", descr := "H" }

/-- A relational column referencing the dataset's own model under a name
different from the designated parent column. -/
def cexSelfCol : Column := { name := "ref_id", subfield := "", model := some "s" }

/-- A dataset holding a non-parent self-referencing relational column. -/
def cexSelfNode : Node :=
  { model := "s", df := cexFrame "s1", cols := [cexSelfCol],
    parent := "parent_id", descr := "S" }

/-- A one-row raw input for the idempotent-rerun scenario. -/
def cexRunInput : Input :=
  { model := "m", df := { columns := ["id", "f"], rows := [[some "r1", some "x"]] } }

/-- The dedup log produced by the first run on `cexRunInput`. -/
def cexRunLog : List LogEntry :=
  [ { batch := 0, candidates := [some "r1"], loaded := [1], model := "m",
      state := "success", x_msgs := [] } ]

/-- A raw buffer holding one good row, one null-indexed row and one
empty-string-indexed row. -/
def cexDirtyFrame : RawFrame :=
  { columns := ["id", "f"],
    rows := [[some "r1", some "x"], [none, some "y"], [some "", some "z"]] }

/-- The node admitted from `cexDirtyFrame`: only the good row survives. -/
def cexAdmittedNode : Node :=
  { model := "m",
    df := { indexName := "id", cols := ["f"], rows := [(some "r1", [some "x"])] },
    cols := [], parent := "", descr := "" }

/-- A concrete two-run history used to exercise the log-file protocol. -/
def cexRuns : List (List LogEntry) :=
  [ [ { batch := 0, candidates := [some "x1", none], loaded := [7],
        model := "res.partner", state := "success", x_msgs := [] } ],
    [ { batch := 0, candidates := [some "x1"], loaded := [],
        model := "res.partner", state := "failure", x_msgs := ["err"] } ] ]

/-! ## Lemmas about the lazy topological sort -/

section TopoVisitLemmas

variable {α : Type} [DecidableEq α]

theorem topoVisit_subset (edges : List (α × α)) :
    ∀ (fuel : Nat) (remaining : List α),
      ∀ v ∈ (topoVisit edges fuel remaining).1, v ∈ remaining := by
  intro fuel
  induction fuel with
  | zero =>
    intro remaining v hv
    match remaining with
    | [] => simp [topoVisit] at hv
    | x :: xs => simp [topoVisit] at hv
  | succ fuel ih =>
    intro remaining v hv
    match remaining with
    | [] => simp [topoVisit] at hv
    | x :: xs =>
      rw [topoVisit] at hv
      split at hv
      · simp at hv
      · next v0 hf =>
        have hv0 : v0 ∈ x :: xs := List.mem_of_find?_eq_some hf
        simp only [List.mem_cons] at hv
        rcases hv with rfl | hv
        · exact hv0
        · exact (List.erase_subset _ _) (ih _ v hv)

theorem topoVisit_nodup (edges : List (α × α)) :
    ∀ (fuel : Nat) (remaining : List α), remaining.Nodup →
      (topoVisit edges fuel remaining).1.Nodup := by
  intro fuel
  induction fuel with
  | zero =>
    intro remaining h
    match remaining with
    | [] => simp [topoVisit]
    | x :: xs => simp [topoVisit]
  | succ fuel ih =>
    intro remaining h
    match remaining with
    | [] => simp [topoVisit]
    | x :: xs =>
      rw [topoVisit]
      split
      · simp
      · next v0 hf =>
        have hv0 : v0 ∈ x :: xs := List.mem_of_find?_eq_some hf
        refine List.nodup_cons.mpr ⟨?_, ih _ (h.erase v0)⟩
        intro hmem
        have := topoVisit_subset edges fuel ((x :: xs).erase v0) v0 hmem
        exact h.not_mem_erase this

theorem topoVisit_perm_of_ok (edges : List (α × α)) :
    ∀ (fuel : Nat) (remaining : List α),
      (topoVisit edges fuel remaining).2 = true →
      (topoVisit edges fuel remaining).1.Perm remaining := by
  intro fuel
  induction fuel with
  | zero =>
    intro remaining h
    match remaining with
    | [] => simp [topoVisit]
    | x :: xs => simp [topoVisit] at h
  | succ fuel ih =>
    intro remaining h
    match remaining with
    | [] => simp [topoVisit]
    | x :: xs =>
      rw [topoVisit] at h ⊢
      split at h
      · simp at h
      · next v0 hf =>
        have hv0 : v0 ∈ x :: xs := List.mem_of_find?_eq_some hf
        simp only []
        refine List.Perm.trans (List.Perm.cons v0 (ih _ h)) ?_
        exact (List.perm_cons_erase hv0).symm

/-- Soundness of the emission order: for every edge `(u, v)` whose source is
among the nodes, if `v` is emitted then `u` is emitted strictly earlier
(`[u, v]` is a sublist of the emission order). -/
theorem topoVisit_pairs (edges : List (α × α)) (u v : α)
    (he : (u, v) ∈ edges) :
    ∀ (fuel : Nat) (remaining : List α),
      u ∈ remaining → v ∈ (topoVisit edges fuel remaining).1 →
      [u, v].Sublist (topoVisit edges fuel remaining).1 := by
  intro fuel
  induction fuel with
  | zero =>
    intro remaining hu hv
    match remaining with
    | [] => simp at hu
    | x :: xs => simp [topoVisit] at hv
  | succ fuel ih =>
    intro remaining hu hv
    match remaining with
    | [] => simp at hu
    | x :: xs =>
      rw [topoVisit] at hv ⊢
      split at hv
      · simp at hv
      · next v0 hf =>
        have hv0 : v0 ∈ x :: xs := List.mem_of_find?_eq_some hf
        have hpred : noPendingPred edges (x :: xs) v0 = true :=
          List.find?_some hf
        simp only [noPendingPred, decide_eq_true_eq] at hpred
        simp only [List.mem_cons] at hv
        rcases hv with rfl | hv
        · exact absurd hu (hpred (u, v) he rfl)
        · by_cases huv0 : u = v0
          · subst huv0
            exact (List.singleton_sublist.mpr hv).cons₂ u
          · have hu' : u ∈ (x :: xs).erase v0 :=
              (List.mem_erase_of_ne huv0).mpr hu
            exact (ih _ hu' hv).cons v0

/-- If a nonempty set `S` of nodes is "blocked" (every member has an edge
into it from another member), none of its members is ever emitted and the
sort fails. -/
theorem topoVisit_blocked (edges : List (α × α)) (S : List α)
    (hne : S ≠ []) (hblock : ∀ v ∈ S, ∃ u ∈ S, (u, v) ∈ edges) :
    ∀ (fuel : Nat) (remaining : List α), (∀ s ∈ S, s ∈ remaining) →
      (∀ s ∈ S, s ∉ (topoVisit edges fuel remaining).1) ∧
        (topoVisit edges fuel remaining).2 = false := by
  intro fuel
  induction fuel with
  | zero =>
    intro remaining hsub
    match remaining with
    | [] =>
      obtain ⟨s, hs⟩ := List.exists_mem_of_ne_nil S hne
      exact absurd (hsub s hs) (by simp)
    | x :: xs => exact ⟨by simp [topoVisit], by simp [topoVisit]⟩
  | succ fuel ih =>
    intro remaining hsub
    match remaining with
    | [] =>
      obtain ⟨s, hs⟩ := List.exists_mem_of_ne_nil S hne
      exact absurd (hsub s hs) (by simp)
    | x :: xs =>
      rw [topoVisit]
      split
      · exact ⟨by simp, rfl⟩
      · next v0 hf =>
        have hv0 : v0 ∈ x :: xs := List.mem_of_find?_eq_some hf
        have hpred : noPendingPred edges (x :: xs) v0 = true :=
          List.find?_some hf
        simp only [noPendingPred, decide_eq_true_eq] at hpred
        have hv0S : v0 ∉ S := by
          intro hmem
          obtain ⟨u, huS, hedge⟩ := hblock v0 hmem
          exact (hpred (u, v0) hedge rfl) (hsub u huS)
        have hsub' : ∀ s ∈ S, s ∈ (x :: xs).erase v0 := by
          intro s hs
          have hsne : s ≠ v0 := by
            intro h
            subst h
            exact hv0S hs
          exact (List.mem_erase_of_ne hsne).mpr (hsub s hs)
        obtain ⟨h1, h2⟩ := ih _ hsub'
        refine ⟨?_, h2⟩
        intro s hs hmem
        simp only [List.mem_cons] at hmem
        rcases hmem with rfl | hmem
        · exact hv0S hs
        · exact h1 s hs hmem


end TopoVisitLemmas

/-! ## Lemmas about batching -/

theorem chunkRun_nil {α : Type} (n : Nat) (fuel : Nat) :
    chunkRun n fuel ([] : List α) = [] := by
  cases fuel <;> rfl

theorem chunkRun_fuel_irrel {α : Type} (n : Nat) :
    ∀ (f1 : Nat) (l : List α) (f2 : Nat), l.length ≤ f1 → l.length ≤ f2 →
      chunkRun n f1 l = chunkRun n f2 l := by
  intro f1
  induction f1 with
  | zero =>
    intro l f2 h1 _
    have : l = [] := List.eq_nil_of_length_eq_zero (Nat.le_zero.mp h1)
    subst this
    rw [chunkRun_nil, chunkRun_nil]
  | succ f1 ih =>
    intro l f2 h1 h2
    match l with
    | [] => rw [chunkRun_nil, chunkRun_nil]
    | x :: xs =>
      match f2 with
      | 0 => simp at h2
      | f2 + 1 =>
        rw [chunkRun, chunkRun]
        by_cases hn : n = 0
        · simp [hn]
        · simp only [if_neg hn]
          congr 1
          apply ih
          · rw [List.length_drop]
            simp only [List.length_cons] at h1 ⊢
            omega
          · rw [List.length_drop]
            simp only [List.length_cons] at h2 ⊢
            omega

theorem chunkList_nil {α : Type} (n : Nat) : chunkList n ([] : List α) = [] := by
  rfl

theorem chunkList_cons {α : Type} (n : Nat) (hn : n ≠ 0) (x : α) (xs : List α) :
    chunkList n (x :: xs) = (x :: xs).take n :: chunkList n ((x :: xs).drop n) := by
  show chunkRun n (x :: xs).length (x :: xs) = _
  simp only [List.length_cons]
  rw [chunkRun, if_neg hn]
  congr 1
  apply chunkRun_fuel_irrel
  · rw [List.length_drop]
    simp only [List.length_cons]
    omega
  · exact Nat.le_refl _

theorem chunkList_zero_cons {α : Type} (x : α) (xs : List α) :
    chunkList 0 (x :: xs) = [x :: xs] := by
  show chunkRun 0 (x :: xs).length (x :: xs) = _
  simp only [List.length_cons]
  rw [chunkRun]
  simp

theorem chunkList_eq_nil_iff {α : Type} (n : Nat) (l : List α) :
    chunkList n l = [] ↔ l = [] := by
  match l with
  | [] => simp [chunkList_nil]
  | x :: xs =>
    by_cases hn : n = 0
    · subst hn
      rw [chunkList_zero_cons]
      simp
    · rw [chunkList_cons n hn]
      simp

theorem chunkList_flatten_aux {α : Type} (n : Nat) :
    ∀ (fuel : Nat) (l : List α), l.length ≤ fuel →
      (chunkList n l).flatten = l := by
  intro fuel
  induction fuel with
  | zero =>
    intro l hl
    have : l = [] := List.eq_nil_of_length_eq_zero (Nat.le_zero.mp hl)
    subst this
    simp [chunkList_nil]
  | succ fuel ih =>
    intro l hl
    match l with
    | [] => simp [chunkList_nil]
    | x :: xs =>
      by_cases hn : n = 0
      · subst hn
        rw [chunkList_zero_cons]
        simp
      · rw [chunkList_cons n hn]
        simp only [List.flatten_cons]
        rw [ih ((x :: xs).drop n) (by
          rw [List.length_drop]
          simp only [List.length_cons] at hl ⊢
          omega)]
        exact List.take_append_drop n (x :: xs)

/-- The concatenation of the chunks reproduces the buffer exactly. -/
theorem chunkList_flatten {α : Type} (n : Nat) (l : List α) :
    (chunkList n l).flatten = l :=
  chunkList_flatten_aux n l.length l (Nat.le_refl _)

theorem chunkList_length_aux {α : Type} (n : Nat) (hn : 0 < n) :
    ∀ (fuel : Nat) (l : List α), l.length ≤ fuel →
      (chunkList n l).length = (l.length + n - 1) / n := by
  intro fuel
  induction fuel with
  | zero =>
    intro l hl
    have : l = [] := List.eq_nil_of_length_eq_zero (Nat.le_zero.mp hl)
    subst this
    simp [chunkList_nil]
    rw [Nat.div_eq_of_lt (by omega)]
  | succ fuel ih =>
    intro l hl
    match l with
    | [] =>
      simp [chunkList_nil]
      rw [Nat.div_eq_of_lt (by omega)]
    | x :: xs =>
      rw [chunkList_cons n (by omega)]
      simp only [List.length_cons]
      rw [ih ((x :: xs).drop n) (by
        rw [List.length_drop]
        simp only [List.length_cons] at hl ⊢
        omega)]
      rw [List.length_drop]
      simp only [List.length_cons]
      rcases Nat.lt_or_ge n (xs.length + 1) with hlt | hle
      · have h1 : xs.length + 1 - n + n - 1 = (xs.length + 1 - n - 1) + n := by omega
        have h2 : xs.length + 1 + n - 1 = (xs.length + 1 - 1) + n := by omega
        have h3 : xs.length + 1 - 1 = (xs.length + 1 - n - 1) + n := by omega
        rw [h1, h2, Nat.add_div_right _ hn, Nat.add_div_right _ hn, h3,
          Nat.add_div_right _ hn]
      · have h1 : xs.length + 1 - n = 0 := by omega
        have h2 : xs.length + 1 + n - 1 = (xs.length + 1 - 1) + n := by omega
        rw [h1, h2, Nat.add_div_right _ hn]
        rw [Nat.div_eq_of_lt (by omega), Nat.div_eq_of_lt (by omega)]

/-- The number of chunks is `⌈R / n⌉`. -/
theorem chunkList_length {α : Type} (n : Nat) (hn : 0 < n) (l : List α) :
    (chunkList n l).length = (l.length + n - 1) / n :=
  chunkList_length_aux n hn l.length l (Nat.le_refl _)

theorem chunkList_full_aux {α : Type} (n : Nat) (hn : 0 < n) :
    ∀ (fuel : Nat) (l : List α), l.length ≤ fuel →
      ∀ (i : Nat) (c : List α), i + 1 < (chunkList n l).length →
        (chunkList n l)[i]? = some c → c.length = n := by
  intro fuel
  induction fuel with
  | zero =>
    intro l hl i c hi _
    have : l = [] := List.eq_nil_of_length_eq_zero (Nat.le_zero.mp hl)
    subst this
    simp [chunkList_nil] at hi
  | succ fuel ih =>
    intro l hl i c hi hc
    match l with
    | [] => simp [chunkList_nil] at hi
    | x :: xs =>
      rw [chunkList_cons n (by omega)] at hi hc
      match i with
      | 0 =>
        simp only [List.getElem?_cons_zero, Option.some.injEq] at hc
        subst hc
        simp only [List.length_cons] at hi
        have hrest : chunkList n ((x :: xs).drop n) ≠ [] := by
          intro h
          rw [h] at hi
          simp at hi
        have hdrop : (x :: xs).drop n ≠ [] := by
          intro h
          exact hrest (by rw [h]; exact chunkList_nil n)
        have hlen : n < (x :: xs).length := by
          by_contra hcon
          exact hdrop (List.drop_eq_nil_of_le (by omega))
        rw [List.length_take]
        omega
      | i + 1 =>
        simp only [List.getElem?_cons_succ] at hc
        simp only [List.length_cons] at hi
        exact ih ((x :: xs).drop n) (by
          rw [List.length_drop]
          simp only [List.length_cons] at hl ⊢
          omega) i c (by omega) hc

/-- Every chunk except possibly the last has exactly `n` elements. -/
theorem chunkList_full {α : Type} (n : Nat) (hn : 0 < n) (l : List α)
    (i : Nat) (c : List α) (hi : i + 1 < (chunkList n l).length)
    (hc : (chunkList n l)[i]? = some c) : c.length = n :=
  chunkList_full_aux n hn l.length l (Nat.le_refl _) i c hi hc


/-! ## Lemmas about sequential Except processing -/

theorem mapExcept_ok_length {α β : Type} (f : α → Except String β) :
    ∀ (l : List α) (l' : List β), mapExcept f l = .ok l' → l'.length = l.length := by
  intro l
  induction l with
  | nil =>
    intro l' h
    simp only [mapExcept, Except.ok.injEq] at h
    simp [← h]
  | cons x xs ih =>
    intro l' h
    rw [mapExcept] at h
    cases hf : f x with
    | error e => rw [hf] at h; simp at h
    | ok y =>
      rw [hf] at h
      cases hm : mapExcept f xs with
      | error e => rw [hm] at h; simp at h
      | ok ys =>
        rw [hm] at h
        simp only [Except.ok.injEq] at h
        simp [← h, ih ys hm]

theorem mapExcept_ok_mem {α β : Type} (f : α → Except String β) :
    ∀ (l : List α) (l' : List β), mapExcept f l = .ok l' →
      ∀ y ∈ l', ∃ x ∈ l, f x = .ok y := by
  intro l
  induction l with
  | nil =>
    intro l' h
    simp only [mapExcept, Except.ok.injEq] at h
    simp [← h]
  | cons x xs ih =>
    intro l' h
    rw [mapExcept] at h
    cases hf : f x with
    | error e => rw [hf] at h; simp at h
    | ok y0 =>
      rw [hf] at h
      cases hm : mapExcept f xs with
      | error e => rw [hm] at h; simp at h
      | ok ys =>
        rw [hm] at h
        simp only [Except.ok.injEq] at h
        subst h
        intro y hy
        rcases List.mem_cons.mp hy with rfl | hy
        · exact ⟨x, List.mem_cons_self x xs, hf⟩
        · obtain ⟨x', hx', hfx'⟩ := ih ys hm y hy
          exact ⟨x', List.mem_cons_of_mem x hx', hfx'⟩

theorem mapExcept_error_of_mem {α β : Type} (f : α → Except String β)
    (l : List α) (x : α) (hx : x ∈ l) (e : String) (hf : f x = .error e) :
    ∃ e', mapExcept f l = .error e' := by
  induction l with
  | nil => simp at hx
  | cons a as ih =>
    rcases List.mem_cons.mp hx with rfl | hx
    · rw [mapExcept, hf]
      exact ⟨e, rfl⟩
    · rw [mapExcept]
      cases hfa : f a with
      | error e' => exact ⟨e', rfl⟩
      | ok y =>
        obtain ⟨e', he'⟩ := ih hx
        rw [he']
        exact ⟨e', rfl⟩

/-! ## Lemmas about the flush order and trace -/

theorem seed_edges_mem_lt {ns : List Node} {a b : Nat}
    (h : (a, b) ∈ seed_edges ns) : a < ns.length ∧ b < ns.length := by
  simp only [seed_edges, List.mem_bind, List.mem_map, List.mem_filter] at h
  obtain ⟨p, hp, col, _, q, ⟨hq, _⟩, heq⟩ := h
  obtain ⟨ha, hb⟩ : p.1 = a ∧ q.1 = b := by
    constructor <;> (cases heq; rfl)
  subst ha; subst hb
  constructor
  · have := List.mem_enum_iff_getElem?.mp hp
    exact (List.getElem?_eq_some.mp this).1
  · have := List.mem_enum_iff_getElem?.mp hq
    exact (List.getElem?_eq_some.mp this).1

theorem join_map_mem_fst {β : Type} (vis : List Nat) (g : Nat → List (Nat × β))
    (hg : ∀ i e, e ∈ g i → e.1 = i) (e : Nat × β)
    (he : e ∈ (vis.map g).join) : e.1 ∈ vis := by
  rcases List.mem_join.mp he with ⟨l, hl, hel⟩
  rcases List.mem_map.mp hl with ⟨i, hi, rfl⟩
  rw [hg i e hel]
  exact hi

theorem join_map_filter_fst {β : Type} (g : Nat → List (Nat × β))
    (hg : ∀ i e, e ∈ g i → e.1 = i) (i : Nat) :
    ∀ (vis : List Nat), vis.Nodup →
      ((vis.map g).join.filter (fun e => decide (e.1 = i))) =
        if i ∈ vis then g i else [] := by
  intro vis
  induction vis with
  | nil => simp
  | cons j rest ih =>
    intro hnd
    obtain ⟨hj, hrest⟩ := List.nodup_cons.mp hnd
    simp only [List.map_cons, List.join_cons, List.filter_append]
    by_cases hji : j = i
    · subst hji
      rw [List.filter_eq_self.mpr (fun e he => by simp [hg j e he])]
      rw [ih hrest, if_neg hj, if_pos (List.mem_cons_self j rest)]
      simp
    · rw [List.filter_eq_nil.mpr (fun e he => by simp [hg j e he, hji])]
      rw [ih hrest]
      by_cases hi : i ∈ rest
      · rw [if_pos hi, if_pos (List.mem_cons_of_mem j hi)]
        simp
      · rw [if_neg hi, if_neg (by
          intro hmem
          rcases List.mem_cons.mp hmem with h | h
          · exact hji h.symm
          · exact hi h)]
        simp

theorem pair_sublist_split {α : Type} :
    ∀ (l : List α) (x y : α), [x, y].Sublist l →
      ∃ p q r, l = p ++ x :: q ++ y :: r := by
  intro l
  induction l with
  | nil => intro x y h; cases h
  | cons a as ih =>
    intro x y h
    cases h with
    | cons _ h' =>
      obtain ⟨p, q, r, rfl⟩ := ih x y h'
      exact ⟨a :: p, q, r, rfl⟩
    | cons₂ _ h' =>
      have hy : y ∈ as := List.singleton_sublist.mp h'
      obtain ⟨q, r, rfl⟩ := List.append_of_mem hy
      exact ⟨[], q, r, rfl⟩

/-! ## C4: outcome classification and non-aborting batch failures -/

/-- **C4.** For every submitted batch, the outcome is classified `failure`
exactly when the store reports zero written identifiers (otherwise
`success`); every outcome, success or failure, is appended to the dedup
log (one entry per batch of every visited dataset), and a batch-level
failure never aborts the run: the set of flushed batches and the abort
flag are independent of the store's outcomes. -/
theorem spec_C4_outcomes (store : Store) (nodes : List ChunkedNode)
    (edges : List (Nat × Nat)) :
    (∀ e ∈ (flush_all store nodes edges).1,
        (e.state = "failure" ↔ e.loaded = []) ∧
          (e.state = "success" ↔ e.loaded ≠ [])) ∧
    (flush_all store nodes edges).1.length =
      ((flushOrder nodes edges).1.map
        (fun i => (getNode nodes i).batches.length)).sum ∧
    (∀ store' : Store,
        (flush_all store' nodes edges).2 = (flush_all store nodes edges).2 ∧
        (flush_all store' nodes edges).1.length =
          (flush_all store nodes edges).1.length) := by
  have hmk : ∀ (st : Store) (e : LogEntry), e ∈ (flush_all st nodes edges).1 →
      (e.state = "failure" ↔ e.loaded = []) ∧
        (e.state = "success" ↔ e.loaded ≠ []) := by
    intro st e he
    simp only [flush_all] at he
    rcases List.mem_join.mp he with ⟨l, hl, hel⟩
    rcases List.mem_map.mp hl with ⟨i, _, rfl⟩
    simp only [flushNode, List.mem_map] at hel
    obtain ⟨b, _, rfl⟩ := hel
    simp only [load]
    by_cases hids : (st (getNode nodes i).model
        (b.2.indexName :: b.2.cols)
        (b.2.rows.map (fun r => valStr r.1 :: r.2.map valStr))).ids = []
    · simp [hids]
    · simp [hids]
  have hlen : ∀ (st : Store), (flush_all st nodes edges).1.length =
      ((flushOrder nodes edges).1.map
        (fun i => (getNode nodes i).batches.length)).sum := by
    intro st
    simp only [flush_all, List.length_join, List.map_map]
    congr 1
    apply List.map_congr_left
    intro i _
    simp [flushNode]
  refine ⟨hmk store, hlen store, ?_⟩
  intro store'
  exact ⟨rfl, by rw [hlen store', hlen store]⟩

/-! ## Lemmas about `chunkNode` -/

theorem chunkNode_batches_length (N : Nat) (nd : Node) :
    (chunkNode N nd).batches.length = (chunkList N nd.df.rows).length := by
  simp [chunkNode]

theorem chunkNode_batches_fst (N : Nat) (nd : Node) :
    (chunkNode N nd).batches.map (fun p => p.1) =
      List.range (chunkNode N nd).batches.length := by
  rw [chunkNode_batches_length]
  simp only [chunkNode, List.map_map]
  have h1 : ((fun p => p.1) ∘ fun p : Nat × List (Val × List Val) =>
      (((p.1, { nd.df with rows := p.2 }) : Nat × Frame))) = Prod.fst := rfl
  rw [h1, List.enum_map_fst]

theorem chunkNode_batches_rows (N : Nat) (nd : Node) :
    (chunkNode N nd).batches.map (fun p => p.2.rows) = chunkList N nd.df.rows := by
  simp only [chunkNode, List.map_map]
  have h1 : ((fun p : Nat × Frame => p.2.rows) ∘ fun p : Nat × List (Val × List Val) =>
      (((p.1, { nd.df with rows := p.2 }) : Nat × Frame))) = Prod.snd := rfl
  rw [h1, List.enum_map_snd]

/-! ## C3: batch partition -/

/-- **C3.** For every dataset buffer of `R` rows and every positive batch
size `N`, the Batcher produces exactly `⌈R / N⌉` batches numbered
contiguously from `0`, every batch except possibly the last has exactly
`N` rows, and the concatenation of the batches in sequence order
reproduces the row-ordered buffer exactly. -/
theorem spec_C3_batch_partition (N : Nat) (hN : 0 < N) (nd : Node) :
    (chunkNode N nd).batches.length = (nd.df.rows.length + N - 1) / N ∧
    (chunkNode N nd).batches.map (fun p => p.1) =
      List.range (chunkNode N nd).batches.length ∧
    (∀ (i : Nat) (p : Nat × Frame), i + 1 < (chunkNode N nd).batches.length →
      ((chunkNode N nd).batches)[i]? = some p → p.2.rows.length = N) ∧
    ((chunkNode N nd).batches.map (fun p => p.2.rows)).flatten = nd.df.rows := by
  refine ⟨?_, chunkNode_batches_fst N nd, ?_, ?_⟩
  · rw [chunkNode_batches_length]
    exact chunkList_length N hN _
  · intro i p hi hp
    simp only [chunkNode, List.getElem?_map, List.getElem?_enum] at hp
    cases hc : (chunkList N nd.df.rows)[i]? with
    | none => rw [hc] at hp; simp at hp
    | some c =>
      rw [hc] at hp
      simp only [Option.map_some', Option.some.injEq] at hp
      have hrows : p.2.rows = c := by rw [← hp]
      rw [hrows]
      exact chunkList_full N hN nd.df.rows i c
        (by rw [← chunkNode_batches_length N nd]; exact hi) hc
  · rw [chunkNode_batches_rows]
    exact chunkList_flatten N nd.df.rows

/-! ## C1: topological execution order -/

/-- **C1.** For every edge `A → B` that the Reference Graph Builder adds
(`A` holds a relational, non-parent column referencing `B`'s model), the
Execution Engine submits all of `B`'s batches strictly before it submits
any of `A`'s batches (the submission trace splits into a prefix free of
`A` and a suffix free of `B`), and within each dataset it submits batches
in strictly ascending sequence number. -/
theorem spec_C1_topological_order (ns ns' : List Node) (N : Nat) (a b : Nat)
    (hedge : (a, b) ∈ seed_edges ns)
    (hord : order_to_parent_all ns = .ok ns') :
    (∃ t₁ t₂, flushTrace (chunk_dataframes N ns') (seed_edges ns) = t₁ ++ t₂ ∧
        (∀ e ∈ t₁, e.1 ≠ a) ∧ (∀ e ∈ t₂, e.1 ≠ b)) ∧
    (∀ i : Nat,
        List.Pairwise (· < ·)
          (((flushTrace (chunk_dataframes N ns') (seed_edges ns)).filter
              (fun e => decide (e.1 = i))).map (fun e => e.2))) := by
  set nodes := chunk_dataframes N ns' with hnodes
  set edges := seed_edges ns with hedges
  have hlen' : ns'.length = ns.length := mapExcept_ok_length _ ns ns' hord
  have hnlen : nodes.length = ns.length := by
    rw [hnodes]; simp [chunk_dataframes, hlen']
  set vis := (flushOrder nodes edges).1 with hvis
  have hvis_lt : ∀ i ∈ vis, i < nodes.length := by
    intro i hi
    exact List.mem_range.mp (topoVisit_subset _ _ _ i hi)
  have hvnodup : vis.Nodup := topoVisit_nodup _ _ _ (List.nodup_range _)
  set g := fun i => (getNode nodes i).batches.map (fun bt => (i, bt.1)) with hgdef
  have hg : ∀ i e, e ∈ g i → e.1 = i := by
    intro i e he
    rcases List.mem_map.mp he with ⟨bt, _, rfl⟩
    rfl
  have htr : flushTrace nodes edges = (vis.map g).join := rfl
  constructor
  · by_cases hain : a ∈ vis
    · have hb_lt : b < ns.length := (seed_edges_mem_lt hedge).2
      have hrev : (b, a) ∈ edges.map (fun e => (e.2, e.1)) :=
        List.mem_map.mpr ⟨(a, b), hedge, rfl⟩
      have hbmem : b ∈ List.range nodes.length :=
        List.mem_range.mpr (by rw [hnlen]; exact hb_lt)
      have hsub : [b, a].Sublist vis := topoVisit_pairs _ b a hrev _ _ hbmem hain
      obtain ⟨p, q, r, hvisq⟩ := pair_sublist_split vis b a hsub
      have hnd := hvnodup
      rw [hvisq] at hnd
      have hpn := List.nodup_append.mp hnd
      have hinner := List.nodup_append.mp hpn.1
      have hb_notq : b ∉ q := (List.nodup_cons.mp hinner.2.1).1
      have hb_notar : b ∉ a :: r := hpn.2.2 (by simp)
      have ha_notp : a ∉ p := by
        intro hap
        exact hpn.2.2 (List.mem_append_left _ hap) (by simp)
      have hba : b ≠ a := by
        intro hba
        exact hb_notar (by simp [hba])
      have hb_notin : b ∉ q ++ a :: r := by
        intro hmem
        rcases List.mem_append.mp hmem with h | h
        · exact hb_notq h
        · exact hb_notar h
      refine ⟨((p ++ [b]).map g).join, ((q ++ a :: r).map g).join, ?_, ?_, ?_⟩
      · rw [htr, hvisq]
        have hsplit : p ++ b :: q ++ a :: r = (p ++ [b]) ++ (q ++ a :: r) := by
          simp
        rw [hsplit, List.map_append]
        simp
      · intro e he
        have := join_map_mem_fst (p ++ [b]) g hg e he
        intro hea
        rw [hea] at this
        rcases List.mem_append.mp this with h | h
        · exact ha_notp h
        · have hab : a = b := by simpa using h
          exact hba hab.symm
      · intro e he
        have := join_map_mem_fst (q ++ a :: r) g hg e he
        intro heb
        rw [heb] at this
        exact hb_notin this
    · refine ⟨flushTrace nodes edges, [], ?_, ?_, ?_⟩
      · simp
      · intro e he hea
        exact hain (hea ▸ join_map_mem_fst vis g hg e (htr ▸ he))
      · intro e he
        simp at he
  · intro i
    rw [htr, join_map_filter_fst g hg i vis hvnodup]
    by_cases hi : i ∈ vis
    · rw [if_pos hi]
      have h1 : (g i).map (fun e => e.2) =
          (getNode nodes i).batches.map (fun bt => bt.1) := by
        simp [hgdef, List.map_map]
      rw [h1]
      have hilt : i < nodes.length := hvis_lt i hi
      have hilt' : i < ns'.length := by
        rw [hnodes] at hilt
        simpa [chunk_dataframes] using hilt
      obtain ⟨nd', hnd'⟩ : ∃ nd', getNode nodes i = chunkNode N nd' := by
        refine ⟨ns'.getD i
          { model := "", df := { indexName := "", cols := [], rows := [] },
            cols := [], parent := "", descr := "" }, ?_⟩
        simp only [getNode, hnodes, chunk_dataframes, List.getD_eq_getElem?_getD,
          List.getElem?_map, List.getElem?_eq_getElem hilt', Option.map_some',
          Option.getD_some]
      rw [hnd', chunkNode_batches_fst]
      exact List.pairwise_lt_range _
    · rw [if_neg hi]
      simp

/-! ## C10: self-referencing non-parent column creates a self-loop -/

/-- **C10.** If a dataset has a relational column that references the
dataset's own model and that column is not the dataset's designated parent
column, edge seeding adds a self-loop edge from the dataset node to
itself, and the execution-ordering sort of `flush_all` fails (the run
aborts fatally), the dataset itself never being flushed. -/
theorem spec_C10_self_loop (ns : List Node) (u : Nat) (nd : Node) (col : Column)
    (hu : ns[u]? = some nd) (hcol : col ∈ nd.cols)
    (hrel : col.model = some nd.model) (hnp : col.name ≠ nd.parent) :
    (u, u) ∈ seed_edges ns ∧
    (∀ (store : Store) (N : Nat) (ns' : List Node),
      order_to_parent_all ns = .ok ns' →
      (flush_all store (chunk_dataframes N ns') (seed_edges ns)).2 = false ∧
      (∀ e ∈ flushTrace (chunk_dataframes N ns') (seed_edges ns), e.1 ≠ u)) := by
  have hmem : (u, u) ∈ seed_edges ns := by
    apply List.mem_bind.mpr
    refine ⟨(u, nd), List.mem_enum_iff_getElem?.mpr (by simpa using hu), ?_⟩
    apply List.mem_bind.mpr
    refine ⟨col, List.mem_filter.mpr ⟨hcol, by simp [hrel]⟩, ?_⟩
    apply List.mem_map.mpr
    refine ⟨(u, nd), List.mem_filter.mpr
      ⟨List.mem_enum_iff_getElem?.mpr (by simpa using hu), ?_⟩, rfl⟩
    simp only [decide_eq_true_eq]
    exact ⟨hrel, hnp⟩
  refine ⟨hmem, ?_⟩
  intro store N ns' hord
  have hulen : u < ns.length := (seed_edges_mem_lt hmem).1
  have hlen' : ns'.length = ns.length := mapExcept_ok_length _ ns ns' hord
  have hnlen : (chunk_dataframes N ns').length = ns.length := by
    simp [chunk_dataframes, hlen']
  have hblocked := topoVisit_blocked
    ((seed_edges ns).map (fun e => (e.2, e.1))) [u] (by simp)
    (by
      intro v hv
      simp only [List.mem_singleton] at hv
      subst hv
      exact ⟨v, List.mem_singleton.mpr rfl, List.mem_map.mpr ⟨(v, v), hmem, rfl⟩⟩)
    (chunk_dataframes N ns').length
    (List.range (chunk_dataframes N ns').length)
    (by
      intro s hs
      simp only [List.mem_singleton] at hs
      subst hs
      exact List.mem_range.mpr (by rw [hnlen]; exact hulen))
  constructor
  · exact hblocked.2
  · intro e he heu
    have hefst : e.1 ∈ (flushOrder (chunk_dataframes N ns') (seed_edges ns)).1 := by
      apply join_map_mem_fst _ _ _ e he
      intro i e' he'
      rcases List.mem_map.mp he' with ⟨bt, _, rfl⟩
      rfl
    exact hblocked.1 u (List.mem_singleton.mpr rfl) (heu ▸ hefst)

/-! ## C6: cycles abort the run — but lazily -/

/-- **C6, counterexample.** The claim states that a cyclic reference graph
aborts the run with *no* batch written to the record store.  On this input
the graph has the cycle `1 → 2 → 1`, the hierarchy-ordering stage
succeeds untouched, and the execution stage does abort — but the lazy
topological sort of `flush_all` first emits the unconstrained node `0`,
whose batch is submitted and logged before the sort raises: the flushed
entry list is nonempty. -/
theorem spec_C6_cex :
    (1, 2) ∈ seed_edges cexNodes ∧ (2, 1) ∈ seed_edges cexNodes ∧
    order_to_parent_all cexNodes = .ok cexNodes ∧
    (flush_all cexStore (chunk_dataframes 50 cexNodes) (seed_edges cexNodes)).2
      = false ∧
    (flush_all cexStore (chunk_dataframes 50 cexNodes) (seed_edges cexNodes)).1
      ≠ [] := by
  refine ⟨by decide, by decide, by rfl, by decide, by decide⟩

/-- **C6, amended.** If a nonempty family `S` of dataset nodes is
cycle-bound (every member holds a reference edge to another member), the
run aborts fatally (the sort flag is `false`) and no batch of any dataset
in `S` is submitted before the abort; batches of datasets outside `S` may
already have been written. -/
theorem spec_C6_cycle_abort (store : Store) (nodes : List ChunkedNode)
    (edges : List (Nat × Nat)) (S : List Nat) (hne : S ≠ [])
    (hS : ∀ v ∈ S, v < nodes.length)
    (hcyc : ∀ v ∈ S, ∃ u ∈ S, (v, u) ∈ edges) :
    (flush_all store nodes edges).2 = false ∧
    (∀ e ∈ flushTrace nodes edges, e.1 ∉ S) := by
  have hblocked := topoVisit_blocked (edges.map (fun e => (e.2, e.1))) S hne
    (by
      intro v hv
      obtain ⟨u, huS, hedge⟩ := hcyc v hv
      exact ⟨u, huS, List.mem_map.mpr ⟨(v, u), hedge, rfl⟩⟩)
    nodes.length (List.range nodes.length)
    (fun s hs => List.mem_range.mpr (hS s hs))
  constructor
  · exact hblocked.2
  · intro e he heS
    have hefst : e.1 ∈ (flushOrder nodes edges).1 := by
      apply join_map_mem_fst _ _ _ e he
      intro i e' he'
      rcases List.mem_map.mp he' with ⟨bt, _, rfl⟩
      rfl
    exact hblocked.1 e.1 heS hefst

/-! ## C2: hierarchy ordering -/

theorem addNodes_mem {α : Type} [DecidableEq α] (xs : List α) :
    ∀ (acc : List α) (y : α), y ∈ addNodes acc xs ↔ y ∈ acc ∨ y ∈ xs := by
  induction xs with
  | nil => intro acc y; simp [addNodes]
  | cons x xs ih =>
    intro acc y
    show y ∈ addNodes (if x ∈ acc then acc else acc ++ [x]) xs ↔ _
    rw [ih]
    by_cases hx : x ∈ acc
    · rw [if_pos hx]
      constructor
      · rintro (h | h)
        · exact Or.inl h
        · exact Or.inr (List.mem_cons_of_mem x h)
      · rintro (h | h)
        · exact Or.inl h
        · rcases List.mem_cons.mp h with rfl | h
          · exact Or.inl hx
          · exact Or.inr h
    · rw [if_neg hx]
      simp only [List.mem_append, List.mem_singleton, List.mem_cons]
      tauto

theorem addNodes_nodup {α : Type} [DecidableEq α] (xs : List α) :
    ∀ (acc : List α), acc.Nodup → (addNodes acc xs).Nodup := by
  induction xs with
  | nil => intro acc h; exact h
  | cons x xs ih =>
    intro acc h
    show (addNodes (if x ∈ acc then acc else acc ++ [x]) xs).Nodup
    apply ih
    by_cases hx : x ∈ acc
    · rw [if_pos hx]; exact h
    · rw [if_neg hx]
      rw [List.nodup_append]
      exact ⟨h, List.nodup_singleton x, by
        intro y hy hy'
        rcases List.mem_singleton.mp hy' with rfl
        exact hx hy⟩

theorem topoSort_eq_some {α : Type} [DecidableEq α] (edges : List (α × α))
    (nodes : List α) (ord : List α) (h : topoSort edges nodes = some ord) :
    (topoVisit edges nodes.length nodes).2 = true ∧
      (topoVisit edges nodes.length nodes).1 = ord := by
  unfold topoSort at h
  by_cases hf : (topoVisit edges nodes.length nodes).2
  · rw [if_pos hf] at h
    exact ⟨hf, by simpa using h⟩
  · rw [if_neg hf] at h
    simp at h

theorem reindex_length (f : Frame) (ord : List Val) :
    (reindex f ord).rows.length = ord.length := by
  simp [reindex]

theorem reindex_fst (f : Frame) (ord : List Val) (i : Nat) (hi : i < ord.length)
    (hi' : i < (reindex f ord).rows.length) :
    ((reindex f ord).rows.get ⟨i, hi'⟩).1 = ord.get ⟨i, hi⟩ := by
  simp only [reindex, List.get_eq_getElem, List.getElem_map]
  cases hfind : f.rows.find? (fun r => decide (r.1 = ord[i])) with
  | none => simp [hfind]
  | some r =>
    simp only [hfind]
    have := List.find?_some hfind
    simpa using this

theorem getD_map_none (cols : List String) (k : Nat) :
    ((cols.map (fun _ => (none : Val))).getD k none) = none := by
  rcases Nat.lt_or_ge k cols.length with hk | hk
  · rw [List.getD_eq_getElem _ _ (by simpa using hk)]
    simp
  · exact List.getD_eq_default _ _ (by simpa using hk)

theorem nodup_pair_sublist_lt {α : Type} (l : List α) (hnd : l.Nodup)
    (x y : α) (hsub : [x, y].Sublist l) (i j : Nat)
    (hi : i < l.length) (hj : j < l.length)
    (hx : l.get ⟨j, hj⟩ = x) (hy : l.get ⟨i, hi⟩ = y) : j < i := by
  obtain ⟨p, q, r, rfl⟩ := pair_sublist_split l x y hsub
  have hb1 : p.length < (p ++ x :: q ++ y :: r).length := by
    simp only [List.length_append, List.length_cons]
    omega
  have hb2 : p.length + q.length + 1 < (p ++ x :: q ++ y :: r).length := by
    simp only [List.length_append, List.length_cons]
    omega
  have hplen : (p ++ x :: q).length = p.length + q.length + 1 := by
    simp only [List.length_append, List.length_cons]
    omega
  have hxpos : (p ++ x :: q ++ y :: r).get ⟨p.length, hb1⟩ = x := by
    simp only [List.get_eq_getElem]
    rw [List.getElem_append_left (by
      simp only [List.length_append, List.length_cons]
      omega)]
    rw [List.getElem_append_right (Nat.le_refl _)]
    simp
  have hypos : (p ++ x :: q ++ y :: r).get ⟨p.length + q.length + 1, hb2⟩ = y := by
    simp only [List.get_eq_getElem]
    rw [List.getElem_append_right (Nat.le_of_eq hplen)]
    simp [hplen]
  have hjeq : (⟨j, hj⟩ : Fin (p ++ x :: q ++ y :: r).length) = ⟨p.length, hb1⟩ :=
    (List.Nodup.get_inj_iff hnd).mp (hx.trans hxpos.symm)
  have hieq : (⟨i, hi⟩ : Fin (p ++ x :: q ++ y :: r).length) =
      ⟨p.length + q.length + 1, hb2⟩ :=
    (List.Nodup.get_inj_iff hnd).mp (hy.trans hypos.symm)
  have hj' : j = p.length := congrArg Fin.val hjeq
  have hi' : i = p.length + q.length + 1 := congrArg Fin.val hieq
  omega

theorem reindex_get (f : Frame) (ord : List Val) (i : Nat) (hi : i < ord.length)
    (hi' : i < (reindex f ord).rows.length) :
    (reindex f ord).rows.get ⟨i, hi'⟩ =
      match f.rows.find? (fun r => decide (r.1 = ord.get ⟨i, hi⟩)) with
      | some r => r
      | none => (ord.get ⟨i, hi⟩, f.cols.map (fun _ => (none : Val))) := by
  simp only [reindex, List.get_eq_getElem, List.getElem_map]

/-- **C2.** For every dataset whose self-reference (parent) column exists
in the resolved column set: when the parent column's subfield convention
equals the convention of the dataset's own index column, a successful
`order_to_parent` reindexes the buffer into a topological order of the
row-level graph, so that every row with a non-null parent reference
appears strictly after the row carrying that index (given unique row
indices); when the conventions differ, ordering is skipped silently with
the buffer unchanged, not treated as an error. -/
theorem spec_C2_hierarchy_ordering (nd : Node) (parent_col : Column)
    (hpc : nd.cols.find? (fun col => decide (col.name = nd.parent)) =
      some parent_col) :
    (parent_col.subfield ≠ nd.df.indexName → order_to_parent nd = .ok nd) ∧
    (parent_col.subfield = nd.df.indexName →
      (nd.df.rows.map (fun r => r.1)).Nodup →
      ∀ nd', order_to_parent nd = .ok nd' →
        ∀ (i j : Nat) (hi : i < nd'.df.rows.length) (hj : j < nd'.df.rows.length)
          (pv : String),
          rowParentCell nd'.df (parent_col.name ++ "/" ++ parent_col.subfield)
            (nd'.df.rows.get ⟨i, hi⟩) = some pv →
          (nd'.df.rows.get ⟨j, hj⟩).1 = some pv →
          j < i) := by
  constructor
  · intro hne
    simp only [order_to_parent, hpc]
    rw [if_pos hne]
  · intro heq hnodup nd' hok i j hi hj pv hcell hrowj
    simp only [order_to_parent, hpc, if_neg (by simp [heq] : ¬parent_col.subfield ≠ nd.df.indexName)] at hok
    split at hok
    · simp at hok
    · next k hk =>
      split at hok
      · simp at hok
      · next ord hts =>
        simp only [Except.ok.injEq] at hok
        subst hok
        obtain ⟨hflag, hordeq⟩ := topoSort_eq_some _ _ _ hts
        have hnodesV : (recordNodes nd k).Nodup := addNodes_nodup _ _ hnodup
        have hordnodup : ord.Nodup := by
          rw [← hordeq]
          exact topoVisit_nodup _ _ _ hnodesV
        have hleni : i < ord.length := by
          rw [← reindex_length nd.df ord]
          exact hi
        have hlenj : j < ord.length := by
          rw [← reindex_length nd.df ord]
          exact hj
        rw [reindex_get nd.df ord i hleni hi] at hcell
        rw [reindex_get nd.df ord j hlenj hj] at hrowj
        simp only [rowParentCell, reindex] at hcell
        rw [hk] at hcell
        simp only [] at hcell
        -- row j's index value equals ord[j] whichever branch was taken
        have hjval : ord.get ⟨j, hlenj⟩ = some pv := by
          cases hfindj : nd.df.rows.find? (fun r => decide (r.1 = ord.get ⟨j, hlenj⟩)) with
          | none =>
            rw [hfindj] at hrowj
            simp only [] at hrowj
            exact hrowj
          | some rj =>
            rw [hfindj] at hrowj
            simp only [] at hrowj
            have := List.find?_some hfindj
            simp only [decide_eq_true_eq] at this
            rw [← this, hrowj]
        -- row i must come from an actual source row, else its parent cell is null
        cases hfind : nd.df.rows.find? (fun r => decide (r.1 = ord.get ⟨i, hleni⟩)) with
        | none =>
          rw [hfind] at hcell
          simp only [] at hcell
          rw [getD_map_none] at hcell
          exact absurd hcell (by simp)
        | some r =>
          rw [hfind] at hcell
          simp only [] at hcell
          have hr_mem : r ∈ nd.df.rows := List.mem_of_find?_eq_some hfind
          have hr_idx : r.1 = ord.get ⟨i, hleni⟩ := by
            have := List.find?_some hfind
            simpa using this
          have hedge : (r.1, (some pv : Val)) ∈ recordEdges nd k := by
            apply List.mem_filterMap.mpr
            refine ⟨(r.1, r.2.getD k none), ?_, ?_⟩
            · exact List.mem_map.mpr ⟨r, hr_mem, rfl⟩
            · rw [hcell]
          have hrev : ((some pv : Val), r.1) ∈
              (recordEdges nd k).map (fun e => (e.2, e.1)) :=
            List.mem_map.mpr ⟨(r.1, some pv), hedge, rfl⟩
          have hpv_nodes : (some pv : Val) ∈ recordNodes nd k := by
            apply (addNodes_mem _ _ _).mpr
            exact Or.inr (List.mem_bind.mpr ⟨(r.1, some pv), hedge, by simp⟩)
          have hr1_out : r.1 ∈ (topoVisit ((recordEdges nd k).map (fun e => (e.2, e.1)))
              (recordNodes nd k).length (recordNodes nd k)).1 := by
            rw [hordeq, hr_idx]
            exact List.get_mem ord _ hleni
          have hsub := topoVisit_pairs _ (some pv) r.1 hrev _ _ hpv_nodes hr1_out
          rw [hordeq] at hsub
          exact nodup_pair_sublist_lt ord hordnodup (some pv) r.1 hsub i j
            hleni hlenj hjval hr_idx.symm

/-! ## C8: rejection of unsupported nested column notation -/

/-- **C8, counterexample.** The claim states that *every* column whose name
carries a trailing suffix other than `/id` or `/.id` (multi-level nested
reference notation) is rejected with a fatal configuration error.  The
column `"a/b/c"` carries the trailing suffix `c ∉ {id, .id}` — yet because
the normalizer splits it into *three* components, the `len == 2` guard
classifies its subfield as empty and metadata enrichment accepts the
dataset without any error. -/
theorem spec_C8_cex :
    (fix_import_export_id_paths "a/b/c").length = 3 ∧
    (fix_import_export_id_paths "a/b/c").getLastD "" ∉
      (["id", ".id"] : List String) ∧
    load_metadata cexEnv [cexNestedNode] =
      .ok [{ cexNestedNode with
             cols := [{ name := "a", subfield := "", model := none }],
             parent := "parent_id", descr := "Model" }] := by
  refine ⟨by decide, by decide, by rfl⟩

/-- **C8, amended.** A dataset column whose name splits into exactly two
path components with a nonempty second component other than `id`/`.id` is
rejected by metadata enrichment with a fatal configuration error that
aborts before execution; columns whose paths have three or more components
are not rejected (their subfield is treated as empty). -/
theorem spec_C8_two_component_rejected (env : String → ModelMeta)
    (ns : List Node) (nd : Node) (hnd : nd ∈ ns) (c : String)
    (hc : c ∈ nd.df.cols) (sub : String)
    (hlen : (fix_import_export_id_paths c).length = 2)
    (hsub : (fix_import_export_id_paths c).getD 1 "" = sub)
    (hne : sub ≠ "") (hbad : sub ∉ (["id", ".id"] : List String)) :
    ∃ e, load_metadata env ns = .error e := by
  have hnode : loadMetadataNode env nd =
      .error "*2many subfield notation is not supported by this loader" := by
    unfold loadMetadataNode
    have hany : (nd.df.cols.map normalizeCol).any badSubfield = true := by
      apply List.any_eq_true.mpr
      refine ⟨normalizeCol c, List.mem_map.mpr ⟨c, hc, rfl⟩, ?_⟩
      have hsubf : (normalizeCol c).subfield = sub := by
        simp only [normalizeCol]
        rw [if_pos hlen, hsub]
      simp only [badSubfield, decide_eq_true_eq, hsubf]
      exact ⟨hne, hbad⟩
    rw [if_pos hany]
  obtain ⟨e, he⟩ := mapExcept_error_of_mem (loadMetadataNode env) ns nd hnd _ hnode
  exact ⟨e, he⟩

/-! ## C9: rows with empty or null first column are dropped -/

/-- **C9.** Before a dataset enters the graph, every row whose first
column is the empty string or null is dropped from the buffer: every row
of the admitted node stems from a source row whose first column is neither
empty nor null, and every batched row — hence every candidate identifier
that can reach the dedup log — is a row of the admitted buffer. -/
theorem spec_C9_null_filter (mod : String) (df : RawFrame)
    (dedup : Option (List LogEntry)) (nd : Node)
    (hok : load_into_graph mod df dedup = .ok nd) :
    (∀ rr ∈ nd.df.rows, ∃ r ∈ df.rows,
        (r.getD 0 none ≠ some "" ∧ r.getD 0 none ≠ none) ∧
        rr = (r.getD (df.columns.indexOf nd.df.indexName) none,
              r.eraseIdx (df.columns.indexOf nd.df.indexName))) ∧
    (∀ (N : Nat) (store : Store) (e : LogEntry),
        e ∈ flushNode store (chunkNode N nd) →
        ∀ cv ∈ e.candidates, cv ∈ nd.df.rows.map (fun r => r.1)) := by
  unfold load_into_graph at hok
  split at hok
  case isFalse => simp at hok
  case isTrue hidx =>
    simp only [Except.ok.injEq] at hok
    subst hok
    constructor
    · intro rr hrr
      simp only [admittedFrame] at hrr ⊢
      have hbase : ∀ rr', rr' ∈ (setIndex df.columns
          (df.rows.filter (fun r =>
            decide (r.getD 0 none ≠ some "" ∧ r.getD 0 none ≠ none)))
          (if ".id" ∈ df.columns then ".id" else "id")).rows →
          ∃ r ∈ df.rows,
            (r.getD 0 none ≠ some "" ∧ r.getD 0 none ≠ none) ∧
            rr' = (r.getD (df.columns.indexOf
                    (if ".id" ∈ df.columns then ".id" else "id")) none,
                  r.eraseIdx (df.columns.indexOf
                    (if ".id" ∈ df.columns then ".id" else "id"))) := by
        intro rr' hrr'
        simp only [setIndex, List.mem_map] at hrr'
        obtain ⟨r, hrmem, rfl⟩ := hrr'
        obtain ⟨hrdf, hrgood⟩ := List.mem_filter.mp hrmem
        simp only [decide_eq_true_eq] at hrgood
        exact ⟨r, hrdf, hrgood, rfl⟩
      cases dedup with
      | none => exact hbase rr hrr
      | some entries =>
        simp only [List.mem_filter] at hrr
        exact hbase rr hrr.1
    · intro N store e he cv hcv
      simp only [flushNode, List.mem_map] at he
      obtain ⟨b, hb, rfl⟩ := he
      simp only [List.mem_map] at hcv ⊢
      obtain ⟨row, hrow, rfl⟩ := hcv
      simp only [chunkNode, List.mem_map] at hb
      obtain ⟨p, hp, rfl⟩ := hb
      have hchunk : p.2 ∈ chunkList N (admittedFrame mod df dedup
          (if ".id" ∈ df.columns then ".id" else "id")).rows := by
        have h2 := List.mem_enum_iff_getElem?.mp hp
        obtain ⟨hlt, heq⟩ := List.getElem?_eq_some.mp h2
        exact heq ▸ List.getElem_mem hlt
      have hrow_in : row ∈ (admittedFrame mod df dedup
          (if ".id" ∈ df.columns then ".id" else "id")).rows := by
        rw [← chunkList_flatten N (admittedFrame mod df dedup
          (if ".id" ∈ df.columns then ".id" else "id")).rows]
        exact List.mem_flatten.mpr ⟨p.2, hchunk, hrow⟩
      exact ⟨row, hrow_in, rfl⟩

/-! ## Lemmas towards C5 -/

theorem loadMetadataNode_ok {env : String → ModelMeta} {nd nd' : Node}
    (h : loadMetadataNode env nd = .ok nd') :
    nd' = { nd with
            cols := (nd.df.cols.map normalizeCol).map (fun col =>
              { col with
                model := ((env nd.model).relational.find?
                  (fun r => decide (r.1 = col.name))).map (fun r => r.2) }),
            parent := (env nd.model).parent,
            descr := (env nd.model).descr } ∧
    (nd.df.cols.map normalizeCol).any badSubfield = false := by
  unfold loadMetadataNode at h
  split at h
  · simp at h
  · next hcond =>
    simp only [Except.ok.injEq] at h
    exact ⟨h.symm, by simpa using hcond⟩

theorem reindex_map_fst (f : Frame) (ord : List Val) :
    (reindex f ord).rows.map (fun r => r.1) = ord := by
  induction ord with
  | nil => rfl
  | cons v vs ih =>
    simp only [reindex, List.map_cons]
    have htail : List.map (fun r => r.1) (List.map (fun v =>
        match List.find? (fun r => decide (r.1 = v)) f.rows with
        | some r => r
        | none => (v, List.map (fun _ => (none : Val)) f.cols)) vs) = vs := ih
    rw [htail]
    congr 1
    cases hfind : f.rows.find? (fun r => decide (r.1 = v)) with
    | none => rfl
    | some r =>
      have := List.find?_some hfind
      simpa using this

theorem order_to_parent_model {nd nd' : Node}
    (h : order_to_parent nd = .ok nd') :
    nd'.model = nd.model ∧ nd'.df.cols = nd.df.cols := by
  unfold order_to_parent at h
  split at h
  · simp only [Except.ok.injEq] at h
    subst h
    exact ⟨rfl, rfl⟩
  · split at h
    · simp only [Except.ok.injEq] at h
      subst h
      exact ⟨rfl, rfl⟩
    · split at h
      · simp at h
      · split at h
        · simp at h
        · simp only [Except.ok.injEq] at h
          subst h
          exact ⟨rfl, rfl⟩

theorem order_to_parent_fst_subset {nd nd' : Node}
    (h : order_to_parent nd = .ok nd') :
    ∀ v ∈ nd.df.rows.map (fun r => r.1), v ∈ nd'.df.rows.map (fun r => r.1) := by
  unfold order_to_parent at h
  split at h
  · simp only [Except.ok.injEq] at h
    subst h
    exact fun v hv => hv
  · split at h
    · simp only [Except.ok.injEq] at h
      subst h
      exact fun v hv => hv
    · split at h
      · simp at h
      · next k hk =>
        split at h
        · simp at h
        · next ord hts =>
          simp only [Except.ok.injEq] at h
          subst h
          intro v hv
          obtain ⟨hflag, hordeq⟩ := topoSort_eq_some _ _ _ hts
          have hperm := topoVisit_perm_of_ok _ _ _ hflag
          rw [hordeq] at hperm
          have hvnodes : v ∈ recordNodes nd k :=
            (addNodes_mem _ _ _).mpr (Or.inl hv)
          have hvord : v ∈ ord := hperm.symm.mem_iff.mp hvnodes
          show v ∈ (reindex nd.df ord).rows.map (fun r => r.1)
          rw [reindex_map_fst]
          exact hvord

theorem flushNode_entry_shape (store : Store) (cn : ChunkedNode) (e : LogEntry)
    (he : e ∈ flushNode store cn) :
    e.model = cn.model ∧ (e.state = "success" → e.loaded ≠ []) := by
  simp only [flushNode, List.mem_map] at he
  obtain ⟨b, _, rfl⟩ := he
  simp only [load]
  constructor
  · trivial
  · by_cases hids : (store cn.model (b.2.indexName :: b.2.cols)
        (b.2.rows.map (fun r => valStr r.1 :: r.2.map valStr))).ids = []
    · simp [hids]
    · simp [hids]

theorem flushNode_coverage (store : Store) (N : Nat) (nd : Node) (v : Val)
    (hv : v ∈ nd.df.rows.map (fun r => r.1)) :
    ∃ e ∈ flushNode store (chunkNode N nd), v ∈ e.candidates := by
  simp only [List.mem_map] at hv
  obtain ⟨row, hrow, rfl⟩ := hv
  have hrow' : row ∈ (chunkList N nd.df.rows).flatten := by
    rw [chunkList_flatten]
    exact hrow
  obtain ⟨c, hc, hrowc⟩ := List.mem_flatten.mp hrow'
  obtain ⟨i, hi⟩ := List.mem_iff_getElem?.mp hc
  have henum : (i, c) ∈ (chunkList N nd.df.rows).enum :=
    List.mem_enum_iff_getElem?.mpr hi
  refine ⟨_, List.mem_map.mpr ⟨(i, { nd.df with rows := c }),
    List.mem_map.mpr ⟨(i, c), henum, rfl⟩, rfl⟩, ?_⟩
  simp only [load]
  exact List.mem_map.mpr ⟨row, hrowc, rfl⟩
/-- **C5.** If a dataset is fully and successfully loaded by a first run
(the first pipeline run returns `ok` with a complete sort and every logged
entry in state `success`), then rerunning the identical input against the
accumulated dedup log filters out all of the dataset's rows before
batching (the admitted buffer is empty) and the second run completes with
zero new log entries — in particular zero successful entries for the
model. -/
theorem spec_C5_idempotent_rerun (env : String → ModelMeta) (store : Store)
    (N : Nat) (inp : Input) (e₁ : List LogEntry)
    (hrun1 : runPipeline env store N [inp] none = .ok (e₁, true))
    (hsucc : ∀ e ∈ e₁, e.state = "success") :
    (∀ nd₂, load_into_graph inp.model inp.df (some e₁) = .ok nd₂ →
      nd₂.df.rows = []) ∧
    (∀ store' : Store, ∃ flag₂,
      runPipeline env store' N [inp] (some e₁) = .ok ([], flag₂)) := by
  unfold runPipeline at hrun1
  split at hrun1
  · simp at hrun1
  · next ns hns =>
    split at hrun1
    · simp at hrun1
    · next ns2 hns2 =>
      split at hrun1
      · simp at hrun1
      · next ns3 hns3 =>
        simp only [Except.ok.injEq] at hrun1
        -- deconstruct the singleton input admission
        simp only [mapExcept] at hns
        split at hns
        · simp at hns
        · next nd₁ hg =>
          simp only [Except.ok.injEq] at hns
          subst hns
          -- deconstruct metadata enrichment
          simp only [load_metadata, mapExcept] at hns2
          split at hns2
          · simp at hns2
          · next nd₁' hmeta =>
            simp only [Except.ok.injEq] at hns2
            subst hns2
            -- deconstruct hierarchy ordering
            simp only [order_to_parent_all, mapExcept] at hns3
            split at hns3
            · simp at hns3
            · next nd₁'' hord =>
              simp only [Except.ok.injEq] at hns3
              subst hns3
              obtain ⟨hnd₁'eq, hnobad⟩ := loadMetadataNode_ok hmeta
              have hdf₁' : nd₁'.df = nd₁.df := by rw [hnd₁'eq]
              have hmodel₁' : nd₁'.model = nd₁.model := by rw [hnd₁'eq]
              -- the admission branch of run 1
              unfold load_into_graph at hg
              split at hg
              case isFalse => simp at hg
              case isTrue hidx =>
                simp only [Except.ok.injEq] at hg
                -- the flush of run 1 visited the single node completely
                have hflag : (flushOrder (chunk_dataframes N [nd₁''])
                    (seed_edges [nd₁'])).2 = true := by
                  have := congrArg Prod.snd hrun1
                  simpa [flush_all] using this
                have hflag' : (topoVisit
                    ((seed_edges [nd₁']).map (fun e => (e.2, e.1)))
                    (chunk_dataframes N [nd₁'']).length
                    (List.range (chunk_dataframes N [nd₁'']).length)).2 = true := hflag
                have hvis : (flushOrder (chunk_dataframes N [nd₁''])
                    (seed_edges [nd₁'])).1 = [0] := by
                  have hperm := topoVisit_perm_of_ok
                    ((seed_edges [nd₁']).map (fun e => (e.2, e.1)))
                    (chunk_dataframes N [nd₁'']).length
                    (List.range (chunk_dataframes N [nd₁'']).length) hflag'
                  have hrange : List.range (chunk_dataframes N [nd₁'']).length = [0] := by
                    show List.range ([nd₁''].map (chunkNode N)).length = [0]
                    rfl
                  rw [hrange] at hperm
                  exact List.perm_singleton.mp hperm
                have he₁ : e₁ = flushNode store (chunkNode N nd₁'') := by
                  have hfst := congrArg Prod.fst hrun1
                  simp only [flush_all] at hfst
                  rw [hvis] at hfst
                  simpa [chunk_dataframes, getNode] using hfst.symm
                -- coverage: every admitted index of run 1 is retrieved on rerun
                have hcover : ∀ v ∈ nd₁.df.rows.map (fun r => r.1),
                    v ∈ log_retrieve_loaded_indices e₁ inp.model := by
                  intro v hv
                  have hv' : v ∈ nd₁'.df.rows.map (fun r => r.1) := by
                    rw [hdf₁']
                    exact hv
                  have hv'' := order_to_parent_fst_subset hord v hv'
                  obtain ⟨e, he, hvc⟩ := flushNode_coverage store N nd₁'' v hv''
                  have heshape := flushNode_entry_shape store (chunkNode N nd₁'') e he
                  have hem : e.model = inp.model := by
                    rw [heshape.1]
                    show nd₁''.model = inp.model
                    rw [(order_to_parent_model hord).1, hmodel₁', ← hg]
                  have he' : e ∈ e₁ := by
                    rw [he₁]
                    exact he
                  have heload : e.loaded ≠ [] := heshape.2 (hsucc e he')
                  unfold log_retrieve_loaded_indices
                  apply List.mem_join.mpr
                  refine ⟨e.candidates, List.mem_map.mpr
                    ⟨e, List.mem_filter.mpr ⟨he', ?_⟩, rfl⟩, hvc⟩
                  simp [hem, heload]
                -- part (a): the rerun admission drops every row
                have hbase : nd₁.df =
                    admittedFrame inp.model inp.df none
                      (if ".id" ∈ inp.df.columns then ".id" else "id") := by
                  rw [← hg]
                have hA : ∀ nd₂, load_into_graph inp.model inp.df (some e₁) = .ok nd₂ →
                    nd₂.df.rows = [] := by
                  intro nd₂ h₂
                  unfold load_into_graph at h₂
                  rw [if_pos hidx] at h₂
                  simp only [Except.ok.injEq] at h₂
                  subst h₂
                  show (admittedFrame inp.model inp.df (some e₁) _).rows = []
                  simp only [admittedFrame]
                  apply List.filter_eq_nil.mpr
                  intro r hr
                  have hrmem : r ∈ nd₁.df.rows := by
                    rw [hbase]
                    exact hr
                  have hret := hcover r.1 (List.mem_map.mpr ⟨r, hrmem, rfl⟩)
                  simp [hret]
                refine ⟨hA, ?_⟩
                -- part (b): the rerun pipeline completes with no entries
                intro store'
                have h2g : load_into_graph inp.model inp.df (some e₁) =
                    .ok { model := inp.model,
                          df := admittedFrame inp.model inp.df (some e₁)
                            (if ".id" ∈ inp.df.columns then ".id" else "id"),
                          cols := [], parent := "", descr := "" } := by
                  unfold load_into_graph
                  rw [if_pos hidx]
                have h2rows : (admittedFrame inp.model inp.df (some e₁)
                    (if ".id" ∈ inp.df.columns then ".id" else "id")).rows = [] :=
                  hA _ h2g
                have hdfemp : admittedFrame inp.model inp.df (some e₁)
                    (if ".id" ∈ inp.df.columns then ".id" else "id") =
                    { nd₁.df with rows := [] } := by
                  rw [hbase, ← h2rows]
                  rfl
                have hnd₂eq : Node.mk inp.model
                    (admittedFrame inp.model inp.df (some e₁)
                      (if ".id" ∈ inp.df.columns then ".id" else "id")) [] "" "" =
                    { nd₁ with df := { nd₁.df with rows := [] } } := by
                  rw [hdfemp, ← hg]
                rw [hnd₂eq] at h2g
                -- metadata enrichment of the emptied node
                have h2meta : loadMetadataNode env
                    { nd₁ with df := { nd₁.df with rows := [] } } =
                    .ok { nd₁' with df := { nd₁'.df with rows := [] } } := by
                  unfold loadMetadataNode
                  have hcond : (({ nd₁ with df := { nd₁.df with rows := [] } } :
                      Node).df.cols.map normalizeCol).any badSubfield = false := hnobad
                  rw [hcond]
                  simp only [Bool.false_eq_true, if_false]
                  rw [hnd₁'eq]
                -- hierarchy ordering of the emptied node succeeds with empty rows
                have h2ord : ∃ nd₂'', order_to_parent
                    { nd₁' with df := { nd₁'.df with rows := [] } } = .ok nd₂'' ∧
                    nd₂''.df.rows = [] := by
                  unfold order_to_parent
                  dsimp only
                  cases hpc : nd₁'.cols.find? (fun col => decide (col.name = nd₁'.parent)) with
                  | none =>
                    exact ⟨_, rfl, rfl⟩
                  | some pcol =>
                    simp only []
                    by_cases hsb : pcol.subfield ≠ nd₁'.df.indexName
                    · rw [if_pos hsb]
                      exact ⟨_, rfl, rfl⟩
                    · -- applicable branch: run 1 supplies the column position
                      rw [if_neg hsb]
                      simp only [order_to_parent, hpc, if_neg hsb] at hord
                      split at hord
                      · simp at hord
                      · exact ⟨_, rfl, rfl⟩
                -- assemble the second pipeline run
                obtain ⟨nd₂'', h2o, h2orows⟩ := h2ord
                have hbatches : (chunkNode N nd₂'').batches = [] := by
                  simp [chunkNode, h2orows, chunkList_nil]
                refine ⟨(flush_all store' (chunk_dataframes N [nd₂''])
                  (seed_edges [{ nd₁' with df := { nd₁'.df with rows := [] } }])).2, ?_⟩
                unfold runPipeline
                simp only [mapExcept, h2g, load_metadata, h2meta, order_to_parent_all, h2o]
                have hentries : (flush_all store' (chunk_dataframes N [nd₂''])
                    (seed_edges [{ nd₁' with df := { nd₁'.df with rows := [] } }])).1 = [] := by
                  simp only [flush_all]
                  apply List.flatten_eq_nil_iff.mpr
                  intro l hl
                  rcases List.mem_map.mp hl with ⟨i, hi, rfl⟩
                  have hi0 : i < 1 := by
                    have hsub := topoVisit_subset _ _ _ i hi
                    have : i ∈ List.range 1 := by
                      simpa [chunk_dataframes] using hsub
                    simpa using this
                  interval_cases i
                  simp [getNode, chunk_dataframes, flushNode, hbatches]
                exact congrArg Except.ok (Prod.ext hentries rfl)

/-! ## Lemmas about the dedup-log serialization and the log-file protocol -/

theorem digitCh_isDigit (n : Nat) : (digitCh n).isDigit = true := by
  unfold digitCh
  split <;> decide

theorem digitCh_ne_zero (n : Nat) (h0 : n ≠ 0) (h10 : n < 10) : digitCh n ≠ '0' := by
  have h1 : 1 ≤ n := Nat.pos_of_ne_zero h0
  interval_cases n <;> decide

theorem hexCh_isHexDigit (n : Nat) : isHexDigitCh (hexCh n) = true := by
  unfold hexCh
  split <;> decide

theorem natCharsAux_digits :
    ∀ fuel n, n < fuel → ∀ d ∈ natCharsAux fuel n, d.isDigit = true := by
  intro fuel
  induction fuel with
  | zero => intro n h; omega
  | succ f ih =>
    intro n h d hd
    simp only [natCharsAux] at hd
    by_cases h10 : n < 10
    · rw [if_pos h10] at hd
      simp at hd
      subst hd
      exact digitCh_isDigit n
    · rw [if_neg h10] at hd
      rcases List.mem_append.mp hd with h1 | h2
      · have hlt : n / 10 < n := Nat.div_lt_self (by omega) (by omega)
        exact ih (n / 10) (by omega) d h1
      · simp at h2
        subst h2
        exact digitCh_isDigit _

theorem natCharsAux_ne_nil : ∀ fuel n, n < fuel → natCharsAux fuel n ≠ [] := by
  intro fuel n h
  cases fuel with
  | zero => omega
  | succ f =>
    simp only [natCharsAux]
    split
    · simp
    · simp

theorem natCharsAux_head :
    ∀ fuel n, n < fuel → n ≠ 0 → (natCharsAux fuel n).head? ≠ some '0' := by
  intro fuel
  induction fuel with
  | zero => intro n h; omega
  | succ f ih =>
    intro n h hn0
    simp only [natCharsAux]
    by_cases h10 : n < 10
    · rw [if_pos h10]
      simp [digitCh_ne_zero n hn0 h10]
    · rw [if_neg h10]
      have hlt : n / 10 < n := Nat.div_lt_self (by omega) (by omega)
      have hpos : 0 < n / 10 := Nat.div_pos (by omega) (by omega)
      have hne := natCharsAux_ne_nil f (n / 10) (by omega)
      have hh := ih (n / 10) (by omega) (by omega)
      cases hcase : natCharsAux f (n / 10) with
      | nil => exact absurd hcase hne
      | cons a t =>
        rw [hcase] at hh
        simp at hh ⊢
        exact hh

theorem natChars_digits (n : Nat) : ∀ d ∈ natChars n, d.isDigit = true :=
  natCharsAux_digits (n + 1) n (Nat.lt_succ_self n)

theorem natChars_ne_nil (n : Nat) : natChars n ≠ [] :=
  natCharsAux_ne_nil (n + 1) n (Nat.lt_succ_self n)

theorem natChars_canonical (n : Nat) :
    natChars n = ['0'] ∨ (natChars n).head? ≠ some '0' := by
  by_cases h : n = 0
  · subst h
    left
    rfl
  · right
    exact natCharsAux_head (n + 1) n (Nat.lt_succ_self n) h

theorem natChars_value (n : Nat) : JsonValue (natChars n) := by
  have h := JsonValue.num false (natChars n) (natChars_ne_nil n)
    (natChars_digits n) (natChars_canonical n)
  simpa using h

theorem intChars_value (i : Int) : JsonValue (intChars i) := by
  unfold intChars
  split
  · have h := JsonValue.num true (natChars i.natAbs) (natChars_ne_nil _)
      (natChars_digits _) (natChars_canonical _)
    simpa using h
  · exact natChars_value _

theorem jsonEscChar_unit (c : Char) : JStrUnit (jsonEscChar c) := by
  unfold jsonEscChar
  split
  · exact JStrUnit.esc '"' (by simp)
  · split
    · exact JStrUnit.esc '\\' (by simp)
    · split
      · exact JStrUnit.hex '0' '0' _ _ (by decide) (by decide)
          (hexCh_isHexDigit _) (hexCh_isHexDigit _)
      · next h1 h2 h3 =>
        apply JStrUnit.plain c
        simp [isJsonStrChar, h1, h2]
        omega

theorem jString_value (s : String) : JsonValue (jString s) := by
  have h := JsonValue.str (s.toList.map jsonEscChar) (by
    intro u hu
    rcases List.mem_map.mp hu with ⟨c, _, rfl⟩
    exact jsonEscChar_unit c)
  exact h

theorem jValText_value (v : Val) : JsonValue (jValText v) := by
  cases v with
  | none => exact JsonValue.nullLit
  | some s => exact jString_value s

theorem jIndent_ws (lvl : Nat) : ∀ c ∈ jIndent lvl, isJsonWS c = true := by
  intro c hc
  simp [jIndent, List.mem_replicate] at hc
  rcases hc with h | ⟨_, h⟩ <;> subst h <;> decide

theorem jElemsTexts_elements (lvl : Nat) :
    ∀ items : List (List Char), (∀ v ∈ items, JsonValue v) →
      ∀ s ∈ jElemsTexts lvl items, JsonElement s := by
  intro items
  induction items with
  | nil =>
    intro _ s hs
    simp [jElemsTexts] at hs
  | cons v vs ih =>
    intro h s hs
    cases vs with
    | nil =>
      simp only [jElemsTexts, List.mem_singleton] at hs
      subst hs
      exact JsonElement.mk (jIndent (lvl + 1)) v (jIndent lvl)
        (jIndent_ws _) (jIndent_ws _) (h v (by simp))
    | cons w ws =>
      simp only [jElemsTexts] at hs
      rcases List.mem_cons.mp hs with h1 | h2
      · subst h1
        have he := JsonElement.mk (jIndent (lvl + 1)) v []
          (jIndent_ws _) (by simp) (h v (by simp))
        simpa using he
      · exact ih (fun u hu => h u (by simp [hu])) s h2

theorem jArrayText_value (lvl : Nat) (items : List (List Char))
    (h : ∀ v ∈ items, JsonValue v) : JsonValue (jArrayText lvl items) := by
  cases items with
  | nil => exact JsonValue.arrNil [] (by simp)
  | cons v vs =>
    have hne : jElemsTexts lvl (v :: vs) ≠ [] := by
      cases vs <;> simp [jElemsTexts]
    exact JsonValue.arr _ hne (jElemsTexts_elements lvl _ h)

theorem jMemberText_member (lvl : Nat) (key : String) (v tail : List Char)
    (hv : JsonValue v) (htail : ∀ c ∈ tail, isJsonWS c = true) :
    JsonMember (jMemberText lvl key v ++ tail) := by
  have he : JsonElement (' ' :: (v ++ tail)) := by
    have h := JsonElement.mk [' '] v tail
      (by intro c hc; simp at hc; subst hc; decide) htail hv
    simpa using h
  have hm := JsonMember.mk (jIndent (lvl + 1)) [] (' ' :: (v ++ tail))
    (key.toList.map jsonEscChar) (jIndent_ws _) (by simp)
    (by
      intro u hu
      rcases List.mem_map.mp hu with ⟨c, _, rfl⟩
      exact jsonEscChar_unit c)
    he
  have heq : jMemberText lvl key v ++ tail
      = jIndent (lvl + 1) ++ '"' :: (key.toList.map jsonEscChar).flatten
          ++ '"' :: ([] : List Char) ++ ':' :: (' ' :: (v ++ tail)) := by
    simp [jMemberText, jString, jsonEscape]
  rw [heq]
  exact hm

theorem jMembersTexts_members (lvl : Nat) :
    ∀ pairs : List (String × List Char), (∀ p ∈ pairs, JsonValue p.2) →
      ∀ s ∈ jMembersTexts lvl pairs, JsonMember s := by
  intro pairs
  induction pairs with
  | nil =>
    intro _ s hs
    simp [jMembersTexts] at hs
  | cons p ps ih =>
    intro h s hs
    cases ps with
    | nil =>
      simp only [jMembersTexts, List.mem_singleton] at hs
      subst hs
      exact jMemberText_member lvl p.1 p.2 (jIndent lvl) (h p (by simp)) (jIndent_ws _)
    | cons q qs =>
      simp only [jMembersTexts] at hs
      rcases List.mem_cons.mp hs with h1 | h2
      · subst h1
        have hm := jMemberText_member lvl p.1 p.2 [] (h p (by simp)) (by simp)
        simpa using hm
      · exact ih (fun u hu => h u (by simp [hu])) s h2

theorem jObjectText_value (lvl : Nat) (pairs : List (String × List Char))
    (h : ∀ p ∈ pairs, JsonValue p.2) : JsonValue (jObjectText lvl pairs) := by
  cases pairs with
  | nil => exact JsonValue.objNil [] (by simp)
  | cons p ps =>
    have hne : jMembersTexts lvl (p :: ps) ≠ [] := by
      cases ps <;> simp [jMembersTexts]
    exact JsonValue.obj _ hne (jMembersTexts_members lvl _ h)

theorem entryText_value (e : LogEntry) : JsonValue (entryText e) := by
  unfold entryText
  apply jObjectText_value
  intro p hp
  simp at hp
  rcases hp with h | h | h | h | h | h <;> subst h
  · exact natChars_value e.batch
  · exact jArrayText_value 1 _ (by
      intro v hv
      rcases List.mem_map.mp hv with ⟨x, _, rfl⟩
      exact jValText_value x)
  · exact jArrayText_value 1 _ (by
      intro v hv
      rcases List.mem_map.mp hv with ⟨x, _, rfl⟩
      exact intChars_value x)
  · exact jString_value e.model
  · exact jString_value e.state
  · exact jArrayText_value 1 _ (by
      intro v hv
      rcases List.mem_map.mp hv with ⟨x, _, rfl⟩
      exact jString_value x)

theorem take_bracket_body (body : List Char) :
    ('[' :: body ++ jSentinel).take (('[' :: body ++ jSentinel).length - 3)
      = '[' :: body := by
  have h1 : '[' :: body ++ jSentinel = ('[' :: body) ++ jSentinel := by simp
  rw [h1]
  have h2 : (('[' :: body) ++ jSentinel).length - 3 = ('[' :: body).length := by
    simp [jSentinel]
  rw [h2]
  exact List.take_left _ _

theorem foldl_runFileUpdate (runs : List (List LogEntry)) :
    ∀ body : List Char,
      List.foldl runFileUpdate ('[' :: body ++ jSentinel) runs
        = '[' :: (body ++ (runs.flatten.map log_load_json).flatten) ++ jSentinel := by
  induction runs with
  | nil => intro body; simp
  | cons es rest ih =>
    intro body
    have hstep : runFileUpdate ('[' :: body ++ jSentinel) es
        = '[' :: (body ++ (es.map log_load_json).flatten) ++ jSentinel := by
      unfold runFileUpdate
      rw [if_neg (by simp), take_bracket_body]
      simp
    rw [List.foldl_cons, hstep, ih]
    simp

theorem logAfterRuns_shape (runs : List (List LogEntry)) (h : runs ≠ []) :
    logAfterRuns runs
      = '[' :: (runs.flatten.map log_load_json).flatten ++ jSentinel := by
  cases runs with
  | nil => exact absurd rfl h
  | cons es rest =>
    unfold logAfterRuns
    rw [List.foldl_cons]
    have h0 : runFileUpdate [] es
        = '[' :: (es.map log_load_json).flatten ++ jSentinel := by
      unfold runFileUpdate
      rw [if_pos rfl]
      simp
    rw [h0, foldl_runFileUpdate rest]
    simp

theorem intercalate_comma_cons (x : List Char) (rs : List (List Char)) (h : rs ≠ []) :
    List.intercalate [','] (x :: rs) = x ++ ',' :: List.intercalate [','] rs := by
  cases rs with
  | nil => exact absurd rfl h
  | cons y ys => simp [List.intercalate]

theorem flatten_comma_intercalate :
    ∀ (xs : List (List Char)) (last : List Char),
      (xs.map (fun x => x ++ [','])).flatten ++ last
        = List.intercalate [','] (xs ++ [last]) := by
  intro xs
  induction xs with
  | nil => intro last; simp [List.intercalate]
  | cons x rest ih =>
    intro last
    have hcons := intercalate_comma_cons x (rest ++ [last]) (by simp)
    calc ((x :: rest).map (fun x => x ++ [','])).flatten ++ last
        = x ++ (',' :: ((rest.map (fun x => x ++ [','])).flatten ++ last)) := by simp
      _ = x ++ (',' :: List.intercalate [','] (rest ++ [last])) := by rw [ih last]
      _ = List.intercalate [','] ((x :: rest) ++ [last]) := by
          rw [List.cons_append, hcons]

theorem logAfterRuns_json (runs : List (List LogEntry)) (h : runs ≠ []) :
    JsonValue (logAfterRuns runs) := by
  rw [logAfterRuns_shape runs h]
  have key : '[' :: (runs.flatten.map log_load_json).flatten ++ jSentinel
      = '[' :: List.intercalate [',']
          ((runs.flatten.map entryText) ++ [['\x7b', '\x7d']]) ++ [']'] := by
    simp only [List.cons_append]
    congr 1
    rw [← flatten_comma_intercalate]
    simp only [List.map_map, jSentinel, List.append_assoc]
    rfl
  rw [key]
  apply JsonValue.arr
  · simp
  · intro s hs
    rcases List.mem_append.mp hs with h1 | h2
    · rcases List.mem_map.mp h1 with ⟨e, _, rfl⟩
      have he := JsonElement.mk [] (entryText e) [] (by simp) (by simp)
        (entryText_value e)
      simpa using he
    · simp at h2
      subst h2
      have hov : JsonValue ['\x7b', '\x7d'] := JsonValue.objNil [] (by simp)
      have he := JsonElement.mk [] ['\x7b', '\x7d'] [] (by simp) (by simp) hov
      simpa using he

/-- **C7.** The persisted dedup log grows across runs exactly as specified:
starting from an empty file, after any non-empty sequence of runs the file
consists of the opening bracket written by the first run, followed by every
entry of every run serialized with sorted keys and 4-space indentation and
a trailing comma, followed by the sentinel — each later run having stripped
the previous run's trailing sentinel before appending — and consequently
the file left between runs is always a syntactically valid JSON array. -/
theorem spec_C7_log_growth (runs : List (List LogEntry)) (h : runs ≠ []) :
    logAfterRuns runs
      = '[' :: (runs.flatten.map (fun e => entryText e ++ [','])).flatten ++ jSentinel
    ∧ JsonValue (logAfterRuns runs) :=
  ⟨by rw [logAfterRuns_shape runs h]; rfl, logAfterRuns_json runs h⟩

/-- Witness for C7 at a concrete two-run history. -/
theorem spec_C7_log_growth_witness :
    cexRuns ≠ [] ∧
      (logAfterRuns cexRuns
          = '[' :: (cexRuns.flatten.map (fun e => entryText e ++ [','])).flatten
              ++ jSentinel
        ∧ JsonValue (logAfterRuns cexRuns)) :=
  ⟨by decide, spec_C7_log_growth cexRuns (by decide)⟩

/-! ## Witnesses -/

/-- Witness for C3 at batch size `2` on a three-row dataset. -/
theorem spec_C3_batch_partition_witness :
    0 < 2 ∧
    ((chunkNode 2 cexBatchNode).batches.length =
        (cexBatchNode.df.rows.length + 2 - 1) / 2 ∧
      (chunkNode 2 cexBatchNode).batches.map (fun p => p.1) =
        List.range (chunkNode 2 cexBatchNode).batches.length ∧
      (∀ (i : Nat) (p : Nat × Frame),
        i + 1 < (chunkNode 2 cexBatchNode).batches.length →
        ((chunkNode 2 cexBatchNode).batches)[i]? = some p →
        p.2.rows.length = 2) ∧
      ((chunkNode 2 cexBatchNode).batches.map (fun p => p.2.rows)).flatten =
        cexBatchNode.df.rows) :=
  ⟨by decide, spec_C3_batch_partition 2 (by decide) cexBatchNode⟩

/-- Witness for C1 on the acyclic two-dataset graph with edge `0 → 1`. -/
theorem spec_C1_topological_order_witness :
    (0, 1) ∈ seed_edges cexAcyclicNodes ∧
    order_to_parent_all cexAcyclicNodes = .ok cexAcyclicNodes ∧
    ((∃ t₁ t₂,
        flushTrace (chunk_dataframes 1 cexAcyclicNodes) (seed_edges cexAcyclicNodes)
          = t₁ ++ t₂ ∧
        (∀ e ∈ t₁, e.1 ≠ 0) ∧ (∀ e ∈ t₂, e.1 ≠ 1)) ∧
      (∀ i : Nat,
        List.Pairwise (· < ·)
          (((flushTrace (chunk_dataframes 1 cexAcyclicNodes)
                (seed_edges cexAcyclicNodes)).filter
              (fun e => decide (e.1 = i))).map (fun e => e.2)))) :=
  ⟨by decide, by rfl,
    spec_C1_topological_order cexAcyclicNodes cexAcyclicNodes 1 0 1
      (by decide) (by rfl)⟩

/-- Witness for C2 on a two-row hierarchical dataset whose parent column
uses the external-identifier convention. -/
theorem spec_C2_hierarchy_ordering_witness :
    cexHierNode.cols.find? (fun col => decide (col.name = cexHierNode.parent)) =
      some cexParentCol ∧
    ((cexParentCol.subfield ≠ cexHierNode.df.indexName →
        order_to_parent cexHierNode = .ok cexHierNode) ∧
      (cexParentCol.subfield = cexHierNode.df.indexName →
        (cexHierNode.df.rows.map (fun r => r.1)).Nodup →
        ∀ nd', order_to_parent cexHierNode = .ok nd' →
          ∀ (i j : Nat) (hi : i < nd'.df.rows.length)
            (hj : j < nd'.df.rows.length) (pv : String),
            rowParentCell nd'.df (cexParentCol.name ++ "/" ++ cexParentCol.subfield)
              (nd'.df.rows.get ⟨i, hi⟩) = some pv →
            (nd'.df.rows.get ⟨j, hj⟩).1 = some pv →
            j < i)) :=
  ⟨by rfl, spec_C2_hierarchy_ordering cexHierNode cexParentCol (by rfl)⟩

/-- Witness for C5 on a one-row dataset fully loaded by a first run. -/
theorem spec_C5_idempotent_rerun_witness :
    runPipeline cexEnv cexStore 50 [cexRunInput] none = .ok (cexRunLog, true) ∧
    (∀ e ∈ cexRunLog, e.state = "success") ∧
    ((∀ nd₂, load_into_graph cexRunInput.model cexRunInput.df (some cexRunLog) =
        .ok nd₂ → nd₂.df.rows = []) ∧
      (∀ store' : Store, ∃ flag₂,
        runPipeline cexEnv store' 50 [cexRunInput] (some cexRunLog) =
          .ok ([], flag₂))) :=
  ⟨by rfl, by decide,
    spec_C5_idempotent_rerun cexEnv cexStore 50 cexRunInput cexRunLog
      (by rfl) (by decide)⟩

/-- Witness for the amended C6 on the cyclic family `{1, 2}` of
`cexNodes`. -/
theorem spec_C6_cycle_abort_witness :
    (([1, 2] : List Nat) ≠ []) ∧
    (∀ v ∈ ([1, 2] : List Nat), v < (chunk_dataframes 50 cexNodes).length) ∧
    (∀ v ∈ ([1, 2] : List Nat), ∃ u ∈ ([1, 2] : List Nat),
      (v, u) ∈ seed_edges cexNodes) ∧
    ((flush_all cexStore (chunk_dataframes 50 cexNodes) (seed_edges cexNodes)).2
        = false ∧
      (∀ e ∈ flushTrace (chunk_dataframes 50 cexNodes) (seed_edges cexNodes),
        e.1 ∉ ([1, 2] : List Nat))) :=
  ⟨by decide, by decide, by decide,
    spec_C6_cycle_abort cexStore (chunk_dataframes 50 cexNodes)
      (seed_edges cexNodes) [1, 2] (by decide) (by decide) (by decide)⟩

/-- Witness for the amended C8 on the two-component column
`partner/name`. -/
theorem spec_C8_two_component_rejected_witness :
    cexTwoCompNode ∈ [cexTwoCompNode] ∧
    "partner/name" ∈ cexTwoCompNode.df.cols ∧
    (fix_import_export_id_paths "partner/name").length = 2 ∧
    (fix_import_export_id_paths "partner/name").getD 1 "" = "name" ∧
    ("name" : String) ≠ "" ∧
    ("name" : String) ∉ (["id", ".id"] : List String) ∧
    (∃ e, load_metadata cexEnv [cexTwoCompNode] = .error e) :=
  ⟨by decide, by decide, by decide, by decide, by decide, by decide,
    spec_C8_two_component_rejected cexEnv [cexTwoCompNode] cexTwoCompNode
      (by decide) "partner/name" (by decide) "name" (by decide) (by decide)
      (by decide) (by decide)⟩

/-- Witness for C9 on a buffer with a null-indexed and an
empty-string-indexed row. -/
theorem spec_C9_null_filter_witness :
    load_into_graph "m" cexDirtyFrame none = .ok cexAdmittedNode ∧
    ((∀ rr ∈ cexAdmittedNode.df.rows, ∃ r ∈ cexDirtyFrame.rows,
        (r.getD 0 none ≠ some "" ∧ r.getD 0 none ≠ none) ∧
        rr = (r.getD (cexDirtyFrame.columns.indexOf cexAdmittedNode.df.indexName) none,
              r.eraseIdx (cexDirtyFrame.columns.indexOf cexAdmittedNode.df.indexName))) ∧
      (∀ (N : Nat) (store : Store) (e : LogEntry),
        e ∈ flushNode store (chunkNode N cexAdmittedNode) →
        ∀ cv ∈ e.candidates, cv ∈ cexAdmittedNode.df.rows.map (fun r => r.1))) :=
  ⟨by rfl, spec_C9_null_filter "m" cexDirtyFrame none cexAdmittedNode (by rfl)⟩

/-- Witness for C10 on a dataset with a non-parent self-referencing
column. -/
theorem spec_C10_self_loop_witness :
    ([cexSelfNode][0]? = some cexSelfNode) ∧
    cexSelfCol ∈ cexSelfNode.cols ∧
    cexSelfCol.model = some cexSelfNode.model ∧
    cexSelfCol.name ≠ cexSelfNode.parent ∧
    ((0, 0) ∈ seed_edges [cexSelfNode] ∧
      (∀ (store : Store) (N : Nat) (ns' : List Node),
        order_to_parent_all [cexSelfNode] = .ok ns' →
        (flush_all store (chunk_dataframes N ns') (seed_edges [cexSelfNode])).2
            = false ∧
        (∀ e ∈ flushTrace (chunk_dataframes N ns') (seed_edges [cexSelfNode]),
          e.1 ≠ 0))) :=
  ⟨by rfl, by decide, by rfl, by decide,
    spec_C10_self_loop [cexSelfNode] 0 cexSelfNode cexSelfCol (by rfl)
      (by decide) (by rfl) (by decide)⟩
